import Mathlib

/-!
# thriftpool-go: circuit breaker, resource pool and pool group

A shallow embedding of `circuit/circuitbreaker.go`, `pool/pool.go`, `pool/resource.go`
and `pool/group.go`.

Modelling conventions

* `time.Time` is an `Int`: nanoseconds counted from the zero instant, so `time.Time{}` is `0`.
  `time.Duration` is an `Int` holding an int64 value; arithmetic that can leave the int64
  range is wrapped with `wrapInt64`. `Time.Sub` saturates, as in the Go library.
* `uint64` counters are `Nat` with an explicit `% 2 ^ 64` at every increment.
* The clock is a stream `clock : Nat → Int`; `World.tick` counts the readings taken so far and
  every `time.Now()` whose value is used by the program takes the next reading. Readings
  that only feed a log message are not modelled, and neither is logging.
* A pointer that may be nil is an `Option`; a nil dereference, an integer division by zero,
  the capacity panic of `NewResourcePool` and the size panic of `make(chan ...)` are values
  of `Fault`.
* The resource factory is an oracle indexed by the number of factory invocations made so
  far (`World.calls`); it honours the Go convention "non-nil resource iff nil error".
* Loops that need not terminate take a fuel argument counting loop iterations; `none` means
  that the fuel ran out.
-/

namespace ThriftPool

/-! ## Time -/

/-- Largest `time.Duration`. -/
def maxDuration : Int := 2 ^ 63 - 1

/-- Smallest `time.Duration`. -/
def minDuration : Int := -(2 ^ 63)

/-- Two's-complement wrap of an integer into the int64 range. -/
def wrapInt64 (x : Int) : Int := (x + 2 ^ 63) % 2 ^ 64 - 2 ^ 63

/-- The Go library's `t.Sub(u)`: the difference `t - u`, saturated to the `Duration` range. -/
def timeSub (t u : Int) : Int :=
  if t - u > maxDuration then maxDuration
  else if t - u < minDuration then minDuration
  else t - u

/-! ## Errors and faults -/

/-- Run-time failures that end a call without a result. -/
inductive Fault where
  | nilDereference
  | divideByZero
  | indexOutOfRange
  | invalidCapacity
  | blockedSend
  | chanSizeOutOfRange
deriving DecidableEq, Repr

/-- A non-nil Go `error`: its message and whether its dynamic type implements `net.Error`. -/
structure Error where
  msg : String
  isNet : Bool
deriving DecidableEq, Repr

/-- The value `ErrClosed` of `pool/resource.go`. -/
def ErrClosed : Error := ⟨"resource pool is closed", false⟩

/-- The value `ErrTimeout` of `pool/resource.go`. -/
def ErrTimeout : Error := ⟨"resource pool timed out", false⟩

/-- The error built by `BreakerGroup.GetAvailable` when no breaker is closed. -/
def ErrAllDead : Error := ⟨"All pools were dead", false⟩

/-! ## circuit/circuitbreaker.go -/

/-- The struct `CircuitBreaker`. -/
structure CircuitBreaker where
  Addr : String
  failCount : Nat
  openTime : Int
  timeToOpen : Int
  TimeToOpenUnit : Int
  MaxTimeToOpen : Int
deriving DecidableEq, Repr

/-- The struct `BreakerGroup`; `counter` is the value behind the `*uint64`. A `*CircuitBreaker`
taken from `Breakers` is modelled by its position in the slice. -/
structure BreakerGroup where
  Breakers : List CircuitBreaker
  counter : Nat
deriving DecidableEq, Repr

/-- `NewCircuitBreaker`: every field that is not given is the zero value. -/
def NewCircuitBreaker (addr : String) (ttoUnit ttoMax : Int) : CircuitBreaker :=
  { Addr := addr, failCount := 0, openTime := 0, timeToOpen := 0,
    TimeToOpenUnit := ttoUnit, MaxTimeToOpen := ttoMax }

/-- `NewBreakerGroup`: no breakers, counter `0`. -/
def NewBreakerGroup : BreakerGroup := { Breakers := [], counter := 0 }

/-- `CircuitBreaker.isOpen`, with `now` the reading of its `time.Now()`. -/
def CircuitBreaker.isOpen (s : CircuitBreaker) (now : Int) : Bool :=
  decide (s.timeToOpen > 0) && decide (timeSub now s.openTime < s.timeToOpen)

/-- `CircuitBreaker.openBreaker`, with `now` the reading of its `time.Now()`. -/
def CircuitBreaker.openBreaker (s : CircuitBreaker) (now : Int) : CircuitBreaker :=
  { s with openTime := now }

/-- `CircuitBreaker.closeBreaker`. -/
def CircuitBreaker.closeBreaker (s : CircuitBreaker) : CircuitBreaker :=
  { s with failCount := 0, timeToOpen := 0, openTime := 0 }

/-- `CircuitBreaker.ReportResult`. `now` is the clock reading taken by `openBreaker`; the
closing `isOpen` test only decides whether a line is logged. -/
def CircuitBreaker.ReportResult (s : CircuitBreaker) (success : Bool) (now : Int) :
    CircuitBreaker :=
  if success then s.closeBreaker
  else
    let s1 := { s with failCount := (s.failCount + 1) % 2 ^ 64 }
    let s2 :=
      if s1.failCount > 15 then
        CircuitBreaker.openBreaker { s1 with timeToOpen := s1.MaxTimeToOpen } now
      else if s1.failCount > 10 then
        CircuitBreaker.openBreaker
          { s1 with timeToOpen := wrapInt64 (4 * s1.TimeToOpenUnit) } now
      else if s1.failCount > 5 then
        CircuitBreaker.openBreaker
          { s1 with timeToOpen := wrapInt64 (2 * s1.TimeToOpenUnit) } now
      else if s1.failCount > 2 then
        CircuitBreaker.openBreaker { s1 with timeToOpen := s1.TimeToOpenUnit } now
      else s1
    if s2.timeToOpen > s2.MaxTimeToOpen then { s2 with timeToOpen := s2.MaxTimeToOpen }
    else s2

/-- `IsNetErr`. -/
def IsNetErr (err : Option Error) : Bool :=
  match err with
  | none => false
  | some e => e.isNet

/-- `CircuitBreaker.ReportError`: the new state and the returned flag. -/
def CircuitBreaker.ReportError (s : CircuitBreaker) (err : Option Error) (now : Int) :
    CircuitBreaker × Bool :=
  let success := !IsNetErr err
  (s.ReportResult success now, success)

/-- `BreakerGroup.AddBreaker`. -/
def BreakerGroup.AddBreaker (gm : BreakerGroup) (b : CircuitBreaker) : BreakerGroup :=
  { gm with Breakers := gm.Breakers ++ [b] }

/-! ## pool/resource.go -/

/-- A non-nil value of the interface `Resource`: `address` is what `Address()` returns,
`rawCloseFails` tells whether `RawClose()` returns a non-nil error, `circuitBreaker` is the
breaker attached by `SetCircuitBreaker` (nil until it is called) and `id` tells resources
apart. -/
structure Resource where
  id : Nat
  address : String
  rawCloseFails : Bool
  circuitBreaker : Option Nat
deriving DecidableEq, Repr

/-- `Resource.SetCircuitBreaker`. -/
def Resource.SetCircuitBreaker (res : Resource) (circuitBreaker : Option Nat) : Resource :=
  { res with circuitBreaker := circuitBreaker }

/-- The struct `resourceWrapper`. -/
structure resourceWrapper where
  resource : Resource
  timeUsed : Int
deriving DecidableEq, Repr

/-- A non-nil `context.Context`. `canceled` tells whether `Done()` is closed when the program
polls it; `deadline` is the time at which the context is canceled later, if ever. -/
structure Context where
  canceled : Bool
  deadline : Option Int := none
deriving DecidableEq, Repr

/-! ## Effects -/

/-- What the program does to the outside world and to the queue, in the order it happens. -/
inductive Event where
  | close (res : Resource)
  | rawClose (res : Resource)
  | created (res : Resource)
  | factoryFailed (err : Error)
  | received (wrapper : resourceWrapper) (now : Int)
  | sent (wrapper : resourceWrapper)
deriving DecidableEq, Repr

/-- The state outside the pools: clock readings taken, factory invocations made, and the
events so far (oldest first). -/
structure World where
  tick : Nat
  calls : Nat
  trace : List Event
deriving DecidableEq, Repr

/-- Appends one event to the trace. -/
def World.emit (w : World) (e : Event) : World := { w with trace := w.trace ++ [e] }

/-- Takes one clock reading. -/
def World.next (w : World) : World := { w with tick := w.tick + 1 }

/-! ## circuit/circuitbreaker.go: selection -/

/-- The failover loop of `GetAvailable` with `n` iterations left and `idx` the index reached.
Each `isOpen` takes the next clock reading (a breaker whose `timeToOpen` is not positive is
closed whatever the reading). -/
def BreakerGroup.scan (clock : Nat → Int) (gm : BreakerGroup) (length : Nat) :
    Nat → Nat → Nat → Except Fault (Option Nat × Nat)
  | 0, _, tick => .ok (none, tick)
  | n + 1, idx, tick =>
    match gm.Breakers[(idx + 1) % length]? with
    | none => .error .indexOutOfRange
    | some ss =>
      if ss.isOpen (clock tick) then BreakerGroup.scan clock gm length n (idx + 1) (tick + 1)
      else .ok (some ((idx + 1) % length), tick + 1)

/-- `BreakerGroup.GetAvailable`: the selected breaker (its position in `Breakers`, `none` for
nil), the error, and the new state. `int(math.Abs(float64(x)))` is `x` for the values it is
applied to (a remainder below the slice length, exactly representable as a float64). -/
def BreakerGroup.GetAvailable (clock : Nat → Int) (gm : BreakerGroup) (w : World) :
    Except Fault (Option Nat × Option Error × BreakerGroup × World) :=
  let c := (gm.counter + 1) % 2 ^ 64
  let gm1 := { gm with counter := c }
  let length := gm.Breakers.length
  if length = 0 then .error .divideByZero
  else
    let idx := c % length
    match gm.Breakers[idx]? with
    | none => .error .indexOutOfRange
    | some ss =>
      if !ss.isOpen (clock w.tick) then .ok (some idx, none, gm1, w.next)
      else
        match BreakerGroup.scan clock gm length (length - 1) idx (w.tick + 1) with
        | .error f => .error f
        | .ok (some i, t) => .ok (some i, none, gm1, { w with tick := t })
        | .ok (none, t) => .ok (none, some ErrAllDead, gm1, { w with tick := t })

/-! ## pool/pool.go -/

/-- A buffered channel of `resourceWrapper`: its contents (oldest first) and its capacity. -/
structure Chan where
  buf : List resourceWrapper
  cap : Nat
deriving DecidableEq, Repr

/-- The struct `ResourcePool`. `factory` gives the outcome of the factory invocation with a
given number. -/
structure ResourcePool where
  address : String
  factory : Nat → Except Error Resource
  resources : Chan
  idleTimeout : Int
  circuitBreaker : Option Nat

/-- `ResourcePool.available`. -/
def ResourcePool.available (r : ResourcePool) : Bool := decide (r.resources.buf.length > 0)

/-- `ResourcePool.closeConn`. The receiver is only read (`r.address`) when `RawClose` fails. -/
def ResourcePool.closeConn (r : Option ResourcePool) (resource : Option Resource) (w : World) :
    Except Fault World :=
  match resource with
  | none => .ok w
  | some res =>
    if res.rawCloseFails then
      match r with
      | none => .error .nilDereference
      | some _ => .ok (w.emit (.rawClose res))
    else .ok (w.emit (.rawClose res))

/-- `ResourcePool.enqueue` on a non-nil receiver and a non-nil resource. The wrapper is built
(and the clock read) before the `select` decides between the send and the default branch. -/
def ResourcePool.enqueue (clock : Nat → Int) (r : ResourcePool) (res : Resource) (w : World) :
    Except Fault (ResourcePool × World) :=
  let wrapper : resourceWrapper := { resource := res, timeUsed := clock w.tick }
  if r.resources.buf.length < r.resources.cap then
    .ok ({ r with resources := { r.resources with buf := r.resources.buf ++ [wrapper] } },
      w.next.emit (.sent wrapper))
  else
    match ResourcePool.closeConn (some r) (some res) w.next with
    | .error f => .error f
    | .ok w1 => .ok (r, w1)

/-- `ResourcePool.Put`. The first statement of `enqueue` reads `r.address` and calls
`res.Address()`, so a nil receiver or a nil resource faults there. -/
def ResourcePool.Put (clock : Nat → Int) (r : Option ResourcePool) (res : Option Resource)
    (forceClose : Bool) (w : World) : Except Fault (Option ResourcePool × World) :=
  if forceClose then
    match ResourcePool.closeConn r res w with
    | .error f => .error f
    | .ok w1 => .ok (r, w1)
  else
    match r, res with
    | some p, some x =>
      match ResourcePool.enqueue clock p x w with
      | .error f => .error f
      | .ok (p1, w1) => .ok (some p1, w1)
    | _, _ => .error .nilDereference

/-- The `for` loop of `ResourcePool.get`; the fuel bounds the number of iterations. -/
def ResourcePool.getLoop (clock : Nat → Int) :
    Nat → ResourcePool → World →
      Option (Except Fault (Option Resource × Option Error × ResourcePool × World))
  | 0, _, _ => none
  | fuel + 1, r, w =>
    match r.resources.buf with
    | wrapper :: rest =>
      let r1 := { r with resources := { r.resources with buf := rest } }
      let now := clock w.tick
      let w1 := w.next.emit (.received wrapper now)
      if timeSub now wrapper.timeUsed ≥ r.idleTimeout then
        match ResourcePool.closeConn (some r1) (some wrapper.resource) w1 with
        | .error f => some (.error f)
        | .ok w2 => ResourcePool.getLoop clock fuel r1 w2
      else some (.ok (some wrapper.resource, none, r1, w1))
    | [] =>
      let w1 := { w with calls := w.calls + 1 }
      match r.factory w.calls with
      | .error err => some (.ok (none, some err, r, w1.emit (.factoryFailed err)))
      | .ok res =>
        match ResourcePool.enqueue clock r res (w1.emit (.created res)) with
        | .error f => some (.error f)
        | .ok (r2, w2) => ResourcePool.getLoop clock fuel r2 w2

/-- `ResourcePool.get`: the cancellation check, then the loop. -/
def ResourcePool.get (clock : Nat → Int) (fuel : Nat) (r : Option ResourcePool)
    (ctx : Option Context) (_wait : Bool) (w : World) :
    Option (Except Fault (Option Resource × Option Error × Option ResourcePool × World)) :=
  match ctx with
  | none => some (.error .nilDereference)
  | some c =>
    if c.canceled then some (.ok (none, some ErrTimeout, r, w))
    else
      match r with
      | none => some (.error .nilDereference)
      | some p =>
        match ResourcePool.getLoop clock fuel p w with
        | none => none
        | some (.error f) => some (.error f)
        | some (.ok (res, err, p1, w1)) => some (.ok (res, err, some p1, w1))

/-- `ResourcePool.Get`. -/
def ResourcePool.Get (clock : Nat → Int) (fuel : Nat) (r : Option ResourcePool)
    (ctx : Option Context) (w : World) :
    Option (Except Fault (Option Resource × Option Error × Option ResourcePool × World)) :=
  ResourcePool.get clock fuel r ctx true w

/-- The population loop of `NewResourcePool` with `n` iterations left. The send is a blocking
one: on a full channel nobody else can receive from, it never completes. -/
def populate (clock : Nat → Int) (factory : Nat → Except Error Resource) :
    Nat → Chan → World → Except Fault (Chan × World)
  | 0, ch, w => .ok (ch, w)
  | n + 1, ch, w =>
    let w1 := { w with calls := w.calls + 1 }
    match factory w.calls with
    | .error err => populate clock factory n ch (w1.emit (.factoryFailed err))
    | .ok res =>
      let wrapper : resourceWrapper := { resource := res, timeUsed := clock w.tick }
      if ch.buf.length < ch.cap then
        populate clock factory n { ch with buf := ch.buf ++ [wrapper] }
          ((w1.emit (.created res)).next.emit (.sent wrapper))
      else .error .blockedSend

/-- The largest capacity `make(chan resourceWrapper, n)` accepts. The Go runtime panics with
"makechan: size out of range" when the buffer does not fit under its allocation limit; the
value is that of 64-bit Linux: `2^48` bytes, less the 96 bytes of the channel header, for
elements of 40 bytes (an interface value and a `time.Time`). The general theorems below take
the limit as a hypothesis and do not depend on its value. An allocation within the limit is
taken to succeed. -/
def maxChanCap : Nat := (2 ^ 48 - 96) / 40

/-- `NewResourcePool`. The channel is made, and its size checked by the runtime, before the
factory is invoked. -/
def NewResourcePool (clock : Nat → Int) (address : String)
    (factory : Nat → Except Error Resource) (initNum maxCap : Int) (idleTimeout : Int)
    (circuitBreaker : Option Nat) (w : World) : Except Fault (ResourcePool × World) :=
  if maxCap ≤ 0 then .error .invalidCapacity
  else if maxCap > maxChanCap then .error .chanSizeOutOfRange
  else
    match populate clock factory initNum.toNat { buf := [], cap := maxCap.toNat } w with
    | .error f => .error f
    | .ok (ch, w1) =>
      .ok ({ address := address, factory := factory, resources := ch,
             idleTimeout := idleTimeout, circuitBreaker := circuitBreaker }, w1)

/-- `ResourcePool.StatsJSON`. -/
def ResourcePool.StatsJSON (r : ResourcePool) : String :=
  "\x7b\"address\": \"" ++ r.address ++ "\", \"resourceNum\": " ++
    toString r.resources.buf.length ++ "\x7d"

/-! ## pool/group.go -/

/-- The struct `Opt`. -/
structure Opt where
  InitNum : Int
  MaxCap : Int
  MaxIdleTimeout : Int
  TimeToOpenMax : Int
  TimeToOpenUnit : Int
deriving DecidableEq, Repr

/-- The struct `Group`. The map `poolIndex` is an association list with one entry per key; a
`*ResourcePool` read from the map is modelled by its key (`none` for nil). -/
structure Group where
  poolIndex : List (String × ResourcePool)
  breakers : BreakerGroup

/-- The map assignment `m[k] = v`. -/
def mapStore (m : List (String × ResourcePool)) (k : String) (v : ResourcePool) :
    List (String × ResourcePool) :=
  (k, v) :: m.filter (fun e => e.1 != k)

/-- The pool a pool pointer refers to. -/
def Group.deref (p : Group) (pool : Option String) : Option ResourcePool :=
  match pool with
  | none => none
  | some k => p.poolIndex.lookup k

/-- Writes the state of a pool back through its pointer. -/
def Group.store (p : Group) (pool : Option String) (r : Option ResourcePool) : Group :=
  match pool, r with
  | some k, some v => { p with poolIndex := mapStore p.poolIndex k v }
  | _, _ => p

/-- The per-address body of the loop of `NewGroup`. The breaker pointer handed to the pool and
to the resources is the position the breaker takes in `Breakers` when it is registered; a
breaker that is not registered stays unreachable, since its pool holds no resource. -/
def NewGroup.loop (clock : Nat → Int) (factory : String → Nat → Except Error Resource)
    (opt : Opt) : List String → Group → World → Except Fault (Group × World)
  | [], group, w => .ok (group, w)
  | address :: rest, group, w =>
    let breaker := NewCircuitBreaker address opt.TimeToOpenUnit opt.TimeToOpenMax
    let ptr := group.breakers.Breakers.length
    let poolFactory : Nat → Except Error Resource := fun n =>
      match factory address n with
      | .error err => .error err
      | .ok res => .ok (res.SetCircuitBreaker (some ptr))
    match NewResourcePool clock address poolFactory opt.InitNum opt.MaxCap opt.MaxIdleTimeout
        (some ptr) w with
    | .error f => .error f
    | .ok (pool, w1) =>
      if !pool.available then NewGroup.loop clock factory opt rest group w1
      else
        NewGroup.loop clock factory opt rest
          { poolIndex := mapStore group.poolIndex address pool,
            breakers := group.breakers.AddBreaker breaker } w1

/-- `NewGroup`. `factory address n` is the outcome of the invocation number `n` of the
caller's factory when it is called for `address`. -/
def NewGroup (clock : Nat → Int) (addressList : List String)
    (factory : String → Nat → Except Error Resource) (opt : Opt) (w : World) :
    Except Fault (Group × World) :=
  NewGroup.loop clock factory opt addressList
    { poolIndex := [], breakers := NewBreakerGroup } w

/-- `Group.StatsJSON`. The `range` over the map yields its entries in an order that Go picks
afresh at every call: `order` lists the positions of the entries of `poolIndex` in the order
of the visit (a permutation of all positions). -/
def Group.StatsJSON (p : Group) (order : List Nat) : String :=
  "[" ++
    ((order.filterMap (fun i => p.poolIndex[i]?)).foldl
      (fun buf e => buf ++ e.2.StatsJSON ++ ", ") "") ++ "]"

/-- `Group.selectPool`: the pool pointer, the breaker pointer, the error and the new state.
`breaker.Addr` is evaluated whatever the error is. -/
def Group.selectPool (clock : Nat → Int) (p : Group) (w : World) :
    Except Fault (Option String × Option Nat × Option Error × Group × World) :=
  match p.breakers.GetAvailable clock w with
  | .error f => .error f
  | .ok (breaker, err, gm, w1) =>
    match breaker with
    | none => .error .nilDereference
    | some i =>
      match gm.Breakers[i]? with
      | none => .error .nilDereference
      | some b =>
        .ok (if (p.poolIndex.lookup b.Addr).isSome then some b.Addr else none,
          some i, err, { p with breakers := gm }, w1)

/-- `Group.findPool`. -/
def Group.findPool (p : Group) (address : String) : Option String × Option Error :=
  match p.poolIndex.lookup address with
  | some _ => (some address, none)
  | none => (none, some ⟨"Fail to get address " ++ address, false⟩)

/-- `Group.Get`. The test after `selectPool` is the source's `err == nil`. -/
def Group.Get (clock : Nat → Int) (fuel : Nat) (p : Group) (ctx : Option Context) (w : World) :
    Option (Except Fault (Option Resource × Option Error × Group × World)) :=
  match p.selectPool clock w with
  | .error f => some (.error f)
  | .ok (pool, _, err, p1, w1) =>
    if err.isNone then some (.ok (none, err, p1, w1))
    else
      match ResourcePool.Get clock fuel (p1.deref pool) ctx w1 with
      | none => none
      | some (.error f) => some (.error f)
      | some (.ok (res, err1, r1, w2)) =>
        if err1.isSome then some (.ok (none, err1, p1.store pool r1, w2))
        else
          match res with
          | none => some (.error .nilDereference)
          | some x => some (.ok (some x, none, p1.store pool r1, w2))

/-- `Group.Return`. After the unknown-address branch the source goes on to `pool.Put`. -/
def Group.Return (clock : Nat → Int) (p : Group) (res : Option Resource) (forceClose : Bool)
    (w : World) : Except Fault (Option Error × Group × World) :=
  match res with
  | none => .ok (none, p, w)
  | some x =>
    let found := p.findPool x.address
    let w1 := if found.2.isSome then w.emit (.close x) else w
    match ResourcePool.Put clock (p.deref found.1) (some x) forceClose w1 with
    | .error f => .error f
    | .ok (r1, w2) => .ok (none, p.store found.1 r1, w2)

/-! ## Scenarios used by the theorems below -/

/-- A clock that advances by one nanosecond per reading. -/
def demoClock : Nat → Int := fun n => 1000 + n

/-- A caller factory that always succeeds, numbering the resources it makes. -/
def demoFactory : String → Nat → Except Error Resource :=
  fun a n => .ok { id := n, address := a, rawCloseFails := false, circuitBreaker := none }

/-- A caller factory that always fails with a network error. -/
def failingFactory : String → Nat → Except Error Resource :=
  fun _ _ => .error { msg := "dial tcp: connection refused", isNet := true }

/-- One resource per address at start, capacity two, one minute of idle time, breaker
cooldown unit one second and ceiling ten seconds. -/
def demoOpt : Opt :=
  { InitNum := 1, MaxCap := 2, MaxIdleTimeout := 60000000000,
    TimeToOpenMax := 10000000000, TimeToOpenUnit := 1000000000 }

/-- The world before anything has happened. -/
def world0 : World := { tick := 0, calls := 0, trace := [] }

/-- A context that is not canceled. -/
def ctxLive : Option Context := some { canceled := false }

/-- The caller reports a result to breaker number `i` of the group. -/
def Group.reportTo (p : Group) (i : Nat) (success : Bool) (now : Int) : Group :=
  { p with breakers :=
      { p.breakers with
        Breakers := p.breakers.Breakers.modify (fun b => b.ReportResult success now) i } }

/-- A resource whose address no group below knows. -/
def orphan : Resource :=
  { id := 7, address := "X", rawCloseFails := false, circuitBreaker := none }

/-- A pool with `idleTimeout = 0`, an empty queue of capacity one and a factory that always
succeeds. -/
def spinPool : ResourcePool :=
  { address := "A", factory := demoFactory "A", resources := { buf := [], cap := 1 },
    idleTimeout := 0, circuitBreaker := none }

/-- A pool with one minute of idle time, an empty queue of capacity two and a factory that
always succeeds. -/
def demoPool : ResourcePool :=
  { address := "A", factory := demoFactory "A", resources := { buf := [], cap := 2 },
    idleTimeout := 60000000000, circuitBreaker := none }

/-! ## Sequences of calls and trace predicates -/

/-- One call made on a pool: `Get` with its context and fuel, or `Put`. -/
inductive Op where
  | get (ctx : Option Context) (fuel : Nat)
  | put (res : Option Resource) (forceClose : Bool)

/-- Runs a sequence of calls on one pool, one after the other; `none` when a call does not
complete (it faults or its fuel runs out). -/
def runOps (clock : Nat → Int) : List Op → ResourcePool → World → Option (ResourcePool × World)
  | [], r, w => some (r, w)
  | .get ctx fuel :: ops, r, w =>
    match ResourcePool.Get clock fuel (some r) ctx w with
    | some (.ok (_, _, some r1, w1)) => runOps clock ops r1 w1
    | _ => none
  | .put res forceClose :: ops, r, w =>
    match ResourcePool.Put clock (some r) res forceClose w with
    | .ok (some r1, w1) => runOps clock ops r1 w1
    | _ => none

/-- Every pop recorded in `pre` found an idle wrapper and is followed at once by the
`RawClose` of its resource. -/
def AllEvicted (idle : Int) (pre : List Event) : Prop :=
  ∀ a b wr now, pre = a ++ Event.received wr now :: b →
    idle ≤ timeSub now wr.timeUsed ∧ ∃ b1, b = Event.rawClose wr.resource :: b1

/-- The calls of the capacity scenario: a `Get`, the resource put back three times in a row,
then a `Get` under a canceled context. -/
def demoOps : List Op :=
  [ .get ctxLive 3,
    .put (some { id := 0, address := "A", rawCloseFails := false, circuitBreaker := none }) false,
    .put (some { id := 5, address := "A", rawCloseFails := false, circuitBreaker := none }) false,
    .put (some { id := 6, address := "A", rawCloseFails := false, circuitBreaker := none }) false,
    .get (some { canceled := true }) 0 ]

/-- A pool with `idleTimeout = 500ns` holding a wrapper stamped at 100ns and one stamped at
900ns; under `demoClock` the first is idle and the second is fresh. -/
def agedPool : ResourcePool :=
  { address := "A", factory := demoFactory "A",
    resources :=
      { buf := [ { resource := { id := 1, address := "A", rawCloseFails := false,
                                 circuitBreaker := none }, timeUsed := 100 },
                 { resource := { id := 2, address := "A", rawCloseFails := false,
                                 circuitBreaker := none }, timeUsed := 900 } ],
        cap := 2 },
    idleTimeout := 500, circuitBreaker := none }

/-! ## Breaker scenarios -/

/-- Whether the breaker at position `i` modulo the number of breakers is open at clock
reading number `t`. -/
def BreakerGroup.openAt (gm : BreakerGroup) (clock : Nat → Int) (i t : Nat) : Bool :=
  match gm.Breakers[i % gm.Breakers.length]? with
  | some b => b.isOpen (clock t)
  | none => false

/-- A fresh breaker with cooldown unit one second and ceiling ten seconds. -/
def freshBreaker (addr : String) : CircuitBreaker :=
  NewCircuitBreaker addr 1000000000 10000000000

/-- A breaker that received three failure reports at 900ns: open for one second from then. -/
def trippedBreaker (addr : String) : CircuitBreaker :=
  (((freshBreaker addr).ReportResult false 900).ReportResult false 900).ReportResult false 900

/-- Three closed breakers and a rotation counter at its largest value. -/
def wrapGroup : BreakerGroup :=
  { Breakers := [freshBreaker "A", freshBreaker "B", freshBreaker "C"],
    counter := 2 ^ 64 - 1 }

/-- A group whose only breaker is open. -/
def loneOpenGroup : BreakerGroup := { Breakers := [trippedBreaker "A"], counter := 0 }

/-- Three breakers, the middle one open, before the first call. -/
def mixedGroup : BreakerGroup :=
  { Breakers := [freshBreaker "A", trippedBreaker "B", freshBreaker "C"], counter := 0 }


/-- The result of the last of `k` successive `GetAvailable` calls on a group (for `k = 0` no
call has been made and the group is as it was). -/
def GetAvailableTimes (clock : Nat → Int) :
    Nat → BreakerGroup → World → Except Fault (Option Nat × Option Error × BreakerGroup × World)
  | 0, gm, w => .ok (none, none, gm, w)
  | k + 1, gm, w =>
    match GetAvailableTimes clock k gm w with
    | .error f => .error f
    | .ok (_, _, gm1, w1) => gm1.GetAvailable clock w1

/-- The breaker selected by a call (`none` when the call faults or returns nil). -/
def selection (r : Except Fault (Option Nat × Option Error × BreakerGroup × World)) :
    Option Nat :=
  match r with
  | .ok (sel, _, _, _) => sel
  | .error _ => none

/-- Three fresh breakers. -/
def threeBreakers : List CircuitBreaker :=
  [freshBreaker "A", freshBreaker "B", freshBreaker "C"]

/-- Three closed breakers registered one by one on a new group. -/
def threeClosed : BreakerGroup :=
  threeBreakers.foldl BreakerGroup.AddBreaker NewBreakerGroup


/-! ## Failure sequences -/

/-- The breaker after `n` consecutive failure reports, report number `i` (counted from zero)
being made at time `times i`. -/
def reportFailures (s : CircuitBreaker) (times : Nat → Int) : Nat → CircuitBreaker
  | 0 => s
  | n + 1 => (reportFailures s times n).ReportResult false (times n)

/-- The value of `timeToOpen` after `n` consecutive failures on a fresh breaker, `failCount`
being `n mod 2^64`. -/
def cooldownAfter (unit max : Int) (n : Nat) : Int :=
  if n % 2 ^ 64 > 15 then max
  else if n % 2 ^ 64 > 10 then min (4 * unit) max
  else if n % 2 ^ 64 > 5 then min (2 * unit) max
  else if n % 2 ^ 64 > 2 then min unit max
  else if n ≤ 2 then 0
  else max

/-- A fresh breaker whose cooldown unit is `2^62` nanoseconds, with the largest ceiling. -/
def hugeUnitBreaker : CircuitBreaker := NewCircuitBreaker "A" (2 ^ 62) (2 ^ 63 - 1)


/-- A breaker whose failure counter holds the largest uint64. -/
def saturatedBreaker : CircuitBreaker :=
  { Addr := "A", failCount := 2 ^ 64 - 1, openTime := 900, timeToOpen := 10000000000,
    TimeToOpenUnit := 1000000000, MaxTimeToOpen := 10000000000 }

/-- A resource that no factory call of the scenarios made. -/
def thirdResource : Resource :=
  { id := 3, address := "A", rawCloseFails := false, circuitBreaker := none }

/-- A pool like `agedPool` with `idleTimeout = 50ns` and a factory that always fails. -/
def brokenPool : ResourcePool :=
  { agedPool with factory := failingFactory "A", idleTimeout := 50 }

/-- The resources made by the successful ones among the `n` factory invocations numbered
`c, c + 1, ..., c + n - 1`, in the order of the invocations. -/
def successes (factory : Nat → Except Error Resource) (c n : Nat) : List Resource :=
  (List.range n).filterMap (fun j => (factory (c + j)).toOption)

/-- A pool factory whose even-numbered invocations succeed and whose odd-numbered ones
fail. -/
def flakyFactory : Nat → Except Error Resource := fun n =>
  if n % 2 = 0 then .ok { id := n, address := "A", rawCloseFails := false, circuitBreaker := none }
  else .error { msg := "dial tcp: connection refused", isNet := true }

/-- Whether at least one of the `n` bootstrap invocations of the caller's factory for
`address`, numbered `c, ..., c + n - 1`, succeeds. -/
def bootstrapSucceeds (factory : String → Nat → Except Error Resource) (address : String)
    (c n : Nat) : Bool :=
  (List.range n).any (fun j => (factory address (c + j)).toBool)

/-- The entries of the address list whose bootstrap succeeds, in input order; the entry at
position `i` makes the invocations numbered from `c + i * n`. -/
def registered (factory : String → Nat → Except Error Resource) (n : Nat) :
    List String → Nat → List String
  | [], _ => []
  | address :: rest, c =>
    (if bootstrapSucceeds factory address c n then [address] else []) ++
      registered factory n rest (c + n)

/-- A caller factory that always fails for the address "A" and succeeds for any other. -/
def abFactory : String → Nat → Except Error Resource := fun a n =>
  if a = "A" then .error { msg := "dial tcp: connection refused", isNet := true }
  else .ok { id := n, address := a, rawCloseFails := false, circuitBreaker := none }

/-- A pool with `idleTimeout = 1ns`, an empty queue of capacity one and a factory that always
succeeds. -/
def tickPool : ResourcePool :=
  { address := "A", factory := demoFactory "A", resources := { buf := [], cap := 1 },
    idleTimeout := 1, circuitBreaker := none }

/-- A pool like `agedPool` with `idleTimeout = 50ns`: under `demoClock` both queued resources
are idle, and a resource created now is fresh one reading later. -/
def stalePool : ResourcePool := { agedPool with idleTimeout := 50 }

/-- Whether, for every entry of the address list, at most `cap` of its `n` bootstrap
invocations succeed; the entry at position `i` makes the invocations numbered from
`c + i * n`. -/
def bootstrapFits (factory : String → Nat → Except Error Resource) (n cap : Nat) :
    List String → Nat → Bool
  | [], _ => true
  | address :: rest, c =>
    decide ((successes (factory address) c n).length ≤ cap) &&
      bootstrapFits factory n cap rest (c + n)

/-- Options with two bootstrap invocations per address and room for one resource. -/
def overfullOpt : Opt := { demoOpt with InitNum := 2, MaxCap := 1 }

/-- The wrappers sent on the queue by the events, in order. -/
def sentWrappers (evs : List Event) : List resourceWrapper :=
  evs.filterMap (fun e =>
    match e with
    | .sent wr => some wr
    | _ => none)

/-- The wrappers received from the queue by the events, in order. -/
def receivedWrappers (evs : List Event) : List resourceWrapper :=
  evs.filterMap (fun e =>
    match e with
    | .received wr _ => some wr
    | _ => none)

/-- Every send recorded in `pre` comes right after the creation of the resource it sends. -/
def SentAfterCreated (pre : List Event) : Prop :=
  ∀ a b sw, pre = a ++ Event.sent sw :: b → ∃ a1, a = a1 ++ [Event.created sw.resource]

/-- Every pop recorded in `evs` took its clock reading at a tick from `lo` up to, not
including, `hi`. -/
def ReadingsWithin (clock : Nat → Int) (lo hi : Nat) (evs : List Event) : Prop :=
  ∀ wr now, Event.received wr now ∈ evs → ∃ t, lo ≤ t ∧ t < hi ∧ now = clock t

/-! ## Auxiliary lemmas -/

theorem closeConn_some (r : ResourcePool) (res : Resource) (w : World) :
    ResourcePool.closeConn (some r) (some res) w = .ok (w.emit (.rawClose res)) := by
  simp only [ResourcePool.closeConn]
  split <;> rfl

theorem timeSub_nonneg {t u : Int} (h : u ≤ t) : 0 ≤ timeSub t u := by
  unfold timeSub maxDuration minDuration
  split_ifs <;> omega

theorem demoClock_step (i : Nat) : timeSub (demoClock (i + 1)) (demoClock i) = 1 := by
  simp [timeSub, demoClock, maxDuration, minDuration]

/-- With `idleTimeout = 0`, a monotone clock and a factory that never fails, the loop of `get`
runs out of any fuel: every resource it pops is idle, every resource it creates is popped
next and is idle too. -/
theorem spinPool_getLoop (fuel : Nat) :
    ∀ (buf : List resourceWrapper) (w : World),
      (∀ x ∈ buf, x.timeUsed ≤ demoClock w.tick) →
      ResourcePool.getLoop demoClock fuel
        { spinPool with resources := { buf := buf, cap := 1 } } w = none := by
  induction fuel with
  | zero => intro buf w _; rfl
  | succ n ih =>
    intro buf w hb
    cases buf with
    | nil =>
      simp only [ResourcePool.getLoop, spinPool, ResourcePool.enqueue, demoFactory]
      simp
      apply ih
      intro x hx
      simp at hx
      subst hx
      simp [World.next, World.emit, demoClock]
    | cons x rest =>
      have hx : 0 ≤ timeSub (demoClock w.tick) x.timeUsed :=
        timeSub_nonneg (hb x (List.mem_cons_self _ _))
      simp only [ResourcePool.getLoop, spinPool, closeConn_some]
      simp only [ge_iff_le, hx, if_true]
      apply ih
      intro y hy
      have := hb y (List.mem_cons_of_mem _ hy)
      simp [World.next, World.emit, demoClock] at this ⊢
      omega

/-- The loop of `get` returns within `len + 2` iterations when a resource stamped at one
reading is still fresh at the next reading. -/
theorem getLoop_returns (clock : Nat → Int) :
    ∀ (buf : List resourceWrapper) (r : ResourcePool) (w : World) (fuel : Nat),
      r.resources.buf = buf → 0 < r.resources.cap →
      (∀ i, w.tick ≤ i → timeSub (clock (i + 1)) (clock i) < r.idleTimeout) →
      buf.length + 2 ≤ fuel →
      ∃ res err r1 w1, ResourcePool.getLoop clock fuel r w = some (.ok (res, err, r1, w1)) ∧
        ((res.isSome = true ∧ err = none) ∨ (res = none ∧ err.isSome = true)) := by
  intro buf
  induction buf with
  | nil =>
    intro r w fuel hbuf hcap hfresh hfuel
    obtain ⟨f, rfl⟩ : ∃ f, fuel = f + 2 := ⟨fuel - 2, by simp at hfuel; omega⟩
    obtain ⟨addr, fac, ⟨b, cap⟩, idle, cb⟩ := r
    simp only at hbuf hcap hfresh
    subst hbuf
    simp only [ResourcePool.getLoop]
    cases hfac : fac w.calls with
    | error e => exact ⟨none, some e, _, _, rfl, Or.inr ⟨rfl, rfl⟩⟩
    | ok res =>
      have h1 := hfresh w.tick (le_refl _)
      simp only [ResourcePool.enqueue, List.length_nil, hcap, if_true, List.nil_append,
        World.next, World.emit, ge_iff_le, not_le.mpr h1, if_false]
      exact ⟨some res, none, _, _, rfl, Or.inl ⟨rfl, rfl⟩⟩
  | cons x rest ih =>
    intro r w fuel hbuf hcap hfresh hfuel
    obtain ⟨f, rfl⟩ : ∃ f, fuel = f + 1 := ⟨fuel - 1, by simp at hfuel; omega⟩
    obtain ⟨addr, fac, ⟨b, cap⟩, idle, cb⟩ := r
    simp only at hbuf hcap hfresh
    subst hbuf
    simp only [ResourcePool.getLoop, closeConn_some]
    split_ifs with hidle
    · apply ih
      · rfl
      · exact hcap
      · intro i hi
        apply hfresh
        simp [World.next, World.emit] at hi
        omega
      · simp at hfuel ⊢; omega
    · exact ⟨some x.resource, none, _, _, rfl, Or.inl ⟨rfl, rfl⟩⟩

/-! ## Group.Get and Group.Return -/

/-- C1 (the code departs from the claim): a group built by `NewGroup` over the single address
"A" has one registered breaker, closed at every clock reading, and a pool whose own `Get`
hands out the resource it holds; `Group.Get` nevertheless returns a nil resource with a nil
error, whatever the fuel, and takes nothing from the pool. -/
theorem Group_Get_returns_nil_after_successful_selection :
    ∃ g w, NewGroup demoClock ["A"] demoFactory demoOpt world0 = .ok (g, w) ∧
      (∃ b, g.breakers.Breakers = [b] ∧ ∀ now, b.isOpen now = false) ∧
      (∃ r p1 w1, ResourcePool.Get demoClock 1 (g.deref (some "A")) ctxLive w.next =
        some (.ok (some r, none, p1, w1))) ∧
      ∀ fuel, ∃ g1, Group.Get demoClock fuel g ctxLive w =
          some (.ok (none, none, g1, w.next)) ∧
        g1.poolIndex.map (fun e => e.2.resources) = g.poolIndex.map (fun e => e.2.resources) :=
  ⟨_, _, rfl, ⟨_, rfl, fun _ => rfl⟩, ⟨_, _, _, rfl⟩, fun _ => ⟨_, rfl, rfl⟩⟩

/-- C2 (the code departs from the claim): when no breaker is registered `Group.Get` ends in a
division by zero, and when the only registered breaker is open it ends in a nil dereference;
in neither case does it return the "All pools were dead" error. -/
theorem Group_Get_faults_when_no_breaker_is_closed :
    (∃ g w, NewGroup demoClock ["A"] failingFactory demoOpt world0 = .ok (g, w) ∧
      g.breakers.Breakers = [] ∧
      ∀ fuel, Group.Get demoClock fuel g ctxLive w = some (.error .divideByZero)) ∧
    (∃ g w, NewGroup demoClock ["A"] demoFactory demoOpt world0 = .ok (g, w) ∧
      let g3 := ((g.reportTo 0 false 1000).reportTo 0 false 1000).reportTo 0 false 1000
      (∃ b, g3.breakers.Breakers = [b] ∧ b.isOpen (demoClock w.tick) = true) ∧
      g3.breakers.GetAvailable demoClock w =
        .ok (none, some ErrAllDead, { g3.breakers with counter := 1 }, w.next) ∧
      ∀ fuel, Group.Get demoClock fuel g3 ctxLive w = some (.error .nilDereference)) :=
  ⟨⟨_, _, rfl, rfl, fun _ => rfl⟩, ⟨_, _, rfl, ⟨_, rfl, by decide⟩, rfl, fun _ => rfl⟩⟩

/-- C3 (the code departs from the claim): returning a resource whose address the group does
not know calls `Close` on it and then goes on to `Put` through the nil pool: with
`forceClose = false` the call ends in a nil dereference, with `forceClose = true` the nil
pool's `Put` runs `RawClose` on the resource. -/
theorem Group_Return_unknown_address_reaches_Put :
    ∃ g w, NewGroup demoClock ["A"] demoFactory demoOpt world0 = .ok (g, w) ∧
      g.poolIndex.lookup orphan.address = none ∧
      Group.Return demoClock g (some orphan) false w = .error .nilDereference ∧
      ∃ g1 w1, Group.Return demoClock g (some orphan) true w = .ok (none, g1, w1) ∧
        w1.trace = w.trace ++ [.close orphan, .rawClose orphan] :=
  ⟨_, _, rfl, rfl, rfl, _, _, rfl, rfl⟩

/-! ## ResourcePool.Get -/

/-- C4 as stated fails: on a pool with `idleTimeout = 0`, an empty queue and a factory that
always succeeds, no amount of fuel makes `Get` return: each created resource is popped, found
idle, closed, and the factory is called again. -/
theorem Get_spins_forever_with_zero_idleTimeout :
    ¬ ∃ fuel,
      (ResourcePool.Get demoClock fuel (some spinPool) ctxLive world0).isSome = true := by
  rintro ⟨fuel, h⟩
  have := spinPool_getLoop fuel [] world0 (by simp)
  simp [ResourcePool.Get, ResourcePool.get, ctxLive, spinPool] at h this
  rw [this] at h
  simp at h

/-- C4 (amended): on a pool with positive capacity, if any clock reading taken during the call
is less than `idleTimeout` after the reading before it (so a resource stamped on creation is
fresh when it is popped next), then `Get` completes within `len(queue) + 2` loop iterations,
without a fault and without waiting, and returns either a resource with a nil error or a nil
resource with an error. -/
theorem Get_returns_when_created_resource_is_fresh (clock : Nat → Int) (r : ResourcePool)
    (ctx : Context) (w : World) (hcap : 0 < r.resources.cap)
    (hfresh : ∀ i, w.tick ≤ i → timeSub (clock (i + 1)) (clock i) < r.idleTimeout) :
    ∀ fuel, r.resources.buf.length + 2 ≤ fuel →
      ∃ res err r1 w1,
        ResourcePool.Get clock fuel (some r) (some ctx) w = some (.ok (res, err, some r1, w1)) ∧
        ((res.isSome = true ∧ err = none) ∨ (res = none ∧ err.isSome = true)) := by
  intro fuel hfuel
  simp only [ResourcePool.Get, ResourcePool.get]
  split_ifs with hc
  · exact ⟨none, some ErrTimeout, r, w, rfl, Or.inr ⟨rfl, rfl⟩⟩
  · obtain ⟨res, err, r1, w1, h, hshape⟩ :=
      getLoop_returns clock _ r w fuel rfl hcap hfresh hfuel
    exact ⟨res, err, r1, w1, by rw [h], hshape⟩

/-- Witness for C4 (amended): the empty `demoPool` under `demoClock`, with fuel two. -/
theorem Get_returns_when_created_resource_is_fresh_witness :
    0 < demoPool.resources.cap ∧
    (∀ i, world0.tick ≤ i → timeSub (demoClock (i + 1)) (demoClock i) < demoPool.idleTimeout) ∧
    ∃ res err r1 w1,
      ResourcePool.Get demoClock 2 (some demoPool) (some { canceled := false }) world0 =
        some (.ok (res, err, some r1, w1)) ∧
      ((res.isSome = true ∧ err = none) ∨ (res = none ∧ err.isSome = true)) :=
  ⟨by decide, fun i _ => by rw [demoClock_step]; decide,
    Get_returns_when_created_resource_is_fresh demoClock demoPool { canceled := false } world0
      (by decide) (fun i _ => by rw [demoClock_step]; decide) 2 (by decide)⟩

/-! ## Capacity -/

theorem populate_bounded (clock : Nat → Int) (factory : Nat → Except Error Resource) :
    ∀ (n : Nat) (ch : Chan) (w : World) (ch1 : Chan) (w1 : World),
      populate clock factory n ch w = .ok (ch1, w1) → ch.buf.length ≤ ch.cap →
      ch1.buf.length ≤ ch1.cap ∧ ch1.cap = ch.cap := by
  intro n
  induction n with
  | zero =>
    intro ch w ch1 w1 h hb
    simp only [populate, Except.ok.injEq, Prod.mk.injEq] at h
    obtain ⟨rfl, -⟩ := h
    exact ⟨hb, rfl⟩
  | succ n ih =>
    intro ch w ch1 w1 h hb
    simp only [populate] at h
    split at h
    · exact ih _ _ _ _ h hb
    · split_ifs at h with hlt
      have := ih _ _ _ _ h (by simp; omega)
      simpa using this

theorem enqueue_bounded (clock : Nat → Int) (r : ResourcePool) (res : Resource) (w : World)
    (r1 : ResourcePool) (w1 : World) (h : ResourcePool.enqueue clock r res w = .ok (r1, w1))
    (hb : r.resources.buf.length ≤ r.resources.cap) :
    r1.resources.buf.length ≤ r1.resources.cap ∧ r1.resources.cap = r.resources.cap := by
  simp only [ResourcePool.enqueue, closeConn_some] at h
  split_ifs at h with hlt
  · simp only [Except.ok.injEq, Prod.mk.injEq] at h
    obtain ⟨rfl, -⟩ := h
    simp; omega
  · simp only [Except.ok.injEq, Prod.mk.injEq] at h
    obtain ⟨rfl, -⟩ := h
    exact ⟨hb, rfl⟩

theorem getLoop_bounded (clock : Nat → Int) :
    ∀ (fuel : Nat) (r : ResourcePool) (w : World) res err (r1 : ResourcePool) (w1 : World),
      ResourcePool.getLoop clock fuel r w = some (.ok (res, err, r1, w1)) →
      r.resources.buf.length ≤ r.resources.cap →
      r1.resources.buf.length ≤ r1.resources.cap ∧ r1.resources.cap = r.resources.cap := by
  intro fuel
  induction fuel with
  | zero => intro r w res err r1 w1 h; simp [ResourcePool.getLoop] at h
  | succ n ih =>
    intro r w res err r1 w1 h hb
    obtain ⟨addr, fac, ⟨b, cap⟩, idle, cb⟩ := r
    cases b with
    | nil =>
      simp only [ResourcePool.getLoop] at h
      split at h
      · simp only [Option.some.injEq, Except.ok.injEq, Prod.mk.injEq] at h
        obtain ⟨-, -, rfl, -⟩ := h
        exact ⟨hb, rfl⟩
      · rename_i res0 hfac
        split at h
        · simp at h
        · rename_i r2 w2 henq
          have h2 := enqueue_bounded clock _ _ _ _ _ henq hb
          have h3 := ih _ _ _ _ _ _ h h2.1
          exact ⟨h3.1, h3.2.trans h2.2⟩
    | cons x rest =>
      simp only [ResourcePool.getLoop, closeConn_some] at h
      simp only [List.length_cons] at hb
      split_ifs at h with hidle
      · have := ih _ _ _ _ _ _ h (by simp; omega)
        simpa using this
      · simp only [Option.some.injEq, Except.ok.injEq, Prod.mk.injEq] at h
        obtain ⟨-, -, rfl, -⟩ := h
        simp; omega

theorem runOps_bounded (clock : Nat → Int) :
    ∀ (ops : List Op) (r : ResourcePool) (w : World) (r1 : ResourcePool) (w1 : World),
      runOps clock ops r w = some (r1, w1) →
      r.resources.buf.length ≤ r.resources.cap →
      r1.resources.buf.length ≤ r1.resources.cap ∧ r1.resources.cap = r.resources.cap := by
  intro ops
  induction ops with
  | nil =>
    intro r w r1 w1 h hb
    simp only [runOps, Option.some.injEq, Prod.mk.injEq] at h
    obtain ⟨rfl, -⟩ := h
    exact ⟨hb, rfl⟩
  | cons op ops ih =>
    intro r w r1 w1 h hb
    cases op with
    | get ctx fuel =>
      simp only [runOps] at h
      split at h
      · rename_i a b r2 w2 hget
        have h2 : r2.resources.buf.length ≤ r2.resources.cap ∧
            r2.resources.cap = r.resources.cap := by
          simp only [ResourcePool.Get, ResourcePool.get] at hget
          split at hget
          · simp at hget
          · split_ifs at hget
            · simp only [Option.some.injEq, Except.ok.injEq, Prod.mk.injEq] at hget
              obtain ⟨-, -, rfl, -⟩ := hget
              exact ⟨hb, rfl⟩
            · split at hget
              · simp at hget
              · simp at hget
              · rename_i hloop
                simp only [Option.some.injEq, Except.ok.injEq, Prod.mk.injEq] at hget
                obtain ⟨-, -, rfl, -⟩ := hget
                exact getLoop_bounded clock _ _ _ _ _ _ _ hloop hb
        have h3 := ih _ _ _ _ h h2.1
        exact ⟨h3.1, h3.2.trans h2.2⟩
      · simp at h
    | put res forceClose =>
      simp only [runOps] at h
      split at h
      · rename_i r2 w2 hput
        have h2 : r2.resources.buf.length ≤ r2.resources.cap ∧
            r2.resources.cap = r.resources.cap := by
          cases forceClose with
          | true =>
            simp only [ResourcePool.Put, if_true] at hput
            split at hput
            · simp at hput
            · simp only [Except.ok.injEq, Prod.mk.injEq, Option.some.injEq] at hput
              obtain ⟨rfl, -⟩ := hput
              exact ⟨hb, rfl⟩
          | false =>
            cases res with
            | none => simp [ResourcePool.Put] at hput
            | some x =>
              simp only [ResourcePool.Put, Bool.false_eq_true, if_false] at hput
              split at hput
              · simp at hput
              · rename_i henq
                simp only [Except.ok.injEq, Prod.mk.injEq, Option.some.injEq] at hput
                obtain ⟨rfl, -⟩ := hput
                exact enqueue_bounded clock _ _ _ _ _ henq hb
        have h3 := ih _ _ _ _ h h2.1
        exact ⟨h3.1, h3.2.trans h2.2⟩
      · simp at h

/-- C5: a pool returned by `NewResourcePool` with `maxCap > 0`, after any finite sequence of
completed `Get` and `Put` calls (any contexts, resources, flags, factory outcomes and clock),
holds at most `maxCap` resources in its queue. Every prefix of a sequence is a sequence, so
the bound holds after each call. -/
theorem queue_length_never_exceeds_maxCap (clock : Nat → Int) (address : String)
    (factory : Nat → Except Error Resource) (initNum maxCap idleTimeout : Int)
    (circuitBreaker : Option Nat) (w0 : World) (r0 : ResourcePool) (w1 : World)
    (ops : List Op) (r : ResourcePool) (w : World) (hcap : 0 < maxCap)
    (hnew : NewResourcePool clock address factory initNum maxCap idleTimeout circuitBreaker w0 =
      .ok (r0, w1))
    (hrun : runOps clock ops r0 w1 = some (r, w)) :
    (r.resources.buf.length : Int) ≤ maxCap := by
  simp only [NewResourcePool, not_le.mpr hcap, if_false] at hnew
  split_ifs at hnew
  split at hnew
  · simp at hnew
  · rename_i ch w2 hpop
    simp only [Except.ok.injEq, Prod.mk.injEq] at hnew
    obtain ⟨rfl, rfl⟩ := hnew
    have h1 := populate_bounded clock factory _ _ _ _ _ hpop (by simp)
    have h2 := runOps_bounded clock ops _ _ _ _ hrun h1.1
    have h3 : r.resources.cap = maxCap.toNat := by rw [h2.2]; exact h1.2
    have h4 : (r.resources.buf.length : Int) ≤ (maxCap.toNat : Int) := by
      rw [← h3]; exact_mod_cast h2.1
    rwa [Int.toNat_of_nonneg (le_of_lt hcap)] at h4

/-- Witness for C5: a pool of capacity two started with one resource; after `demoOps` (which
puts three resources back) the queue holds two. -/
theorem queue_length_never_exceeds_maxCap_witness :
    ∃ r0 w1 r w, (0 : Int) < 2 ∧
      NewResourcePool demoClock "A" (demoFactory "A") 1 2 60000000000 none world0 =
        .ok (r0, w1) ∧
      runOps demoClock demoOps r0 w1 = some (r, w) ∧ r.resources.buf.length = 2 ∧
      (r.resources.buf.length : Int) ≤ 2 :=
  ⟨_, _, _, _, by decide, rfl, rfl, rfl,
    queue_length_never_exceeds_maxCap demoClock "A" (demoFactory "A") 1 2 60000000000 none
      world0 _ _ demoOps _ _ (by decide) rfl rfl⟩

/-! ## Idle eviction -/

theorem AllEvicted_nil (idle : Int) : AllEvicted idle [] := by
  intro a b wr now h
  simp at h

theorem AllEvicted_cons (idle : Int) (e : Event) (pre : List Event)
    (he : ∀ wr now, e ≠ Event.received wr now) (h : AllEvicted idle pre) :
    AllEvicted idle (e :: pre) := by
  intro a b wr now hd
  cases a with
  | nil =>
    simp only [List.nil_append, List.cons.injEq] at hd
    exact absurd hd.1 (he wr now)
  | cons x a1 =>
    simp only [List.cons_append, List.cons.injEq] at hd
    exact h a1 b wr now hd.2

theorem AllEvicted_pop (idle : Int) (wr : resourceWrapper) (now : Int) (pre : List Event)
    (hidle : idle ≤ timeSub now wr.timeUsed) (h : AllEvicted idle pre) :
    AllEvicted idle (Event.received wr now :: Event.rawClose wr.resource :: pre) := by
  intro a b wr1 now1 hd
  cases a with
  | nil =>
    simp only [List.nil_append, List.cons.injEq, Event.received.injEq] at hd
    obtain ⟨⟨rfl, rfl⟩, rfl⟩ := hd
    exact ⟨hidle, _, rfl⟩
  | cons x a1 =>
    simp only [List.cons_append, List.cons.injEq] at hd
    exact AllEvicted_cons idle _ pre (by intro _ _ hh; cases hh) h a1 b wr1 now1 hd.2

theorem SentAfterCreated_nil : SentAfterCreated [] := by
  intro a b sw h
  simp at h

theorem SentAfterCreated_cons (e : Event) (pre : List Event)
    (he : ∀ sw, e ≠ Event.sent sw) (h : SentAfterCreated pre) :
    SentAfterCreated (e :: pre) := by
  intro a b sw hd
  cases a with
  | nil =>
    simp only [List.nil_append, List.cons.injEq] at hd
    exact absurd hd.1 (he sw)
  | cons x a1 =>
    simp only [List.cons_append, List.cons.injEq] at hd
    obtain ⟨a2, ha2⟩ := h a1 b sw hd.2
    exact ⟨x :: a2, by rw [ha2]; simp⟩

theorem SentAfterCreated_create (res : Resource) (t : Int) (pre : List Event)
    (h : SentAfterCreated pre) :
    SentAfterCreated (Event.created res :: Event.sent ⟨res, t⟩ :: pre) := by
  intro a b sw hd
  cases a with
  | nil => simp at hd
  | cons x a1 =>
    simp only [List.cons_append, List.cons.injEq] at hd
    obtain ⟨rfl, hd2⟩ := hd
    cases a1 with
    | nil =>
      simp only [List.nil_append, List.cons.injEq, Event.sent.injEq] at hd2
      obtain ⟨rfl, -⟩ := hd2
      exact ⟨[], rfl⟩
    | cons y a2 =>
      simp only [List.cons_append, List.cons.injEq] at hd2
      obtain ⟨rfl, hd3⟩ := hd2
      obtain ⟨a3, ha3⟩ := h a2 b sw hd3
      exact ⟨Event.created res :: Event.sent ⟨res, t⟩ :: a3, by rw [ha3]; simp⟩

theorem ReadingsWithin_mono (clock : Nat → Int) (lo lo1 hi : Nat) (evs : List Event)
    (hlo : lo ≤ lo1) (h : ReadingsWithin clock lo1 hi evs) : ReadingsWithin clock lo hi evs := by
  intro wr now hm
  obtain ⟨t, h1, h2, h3⟩ := h wr now hm
  exact ⟨t, le_trans hlo h1, h2, h3⟩

theorem ReadingsWithin_lt (clock : Nat → Int) (lo hi : Nat) (pre : List Event)
    (wr : resourceWrapper) (now : Int)
    (h : ReadingsWithin clock lo hi (pre ++ [Event.received wr now])) : lo < hi := by
  obtain ⟨t, h1, h2, -⟩ := h wr now (by simp)
  omega

theorem getLoop_accounted (clock : Nat → Int) (fuel : Nat) :
    ∀ (r : ResourcePool) (w : World) (res : Resource) (err : Option Error) (r1 : ResourcePool)
      (w1 : World),
      ResourcePool.getLoop clock fuel r w = some (.ok (some res, err, r1, w1)) →
      ∃ pre wr now, err = none ∧ w1.trace = w.trace ++ pre ++ [Event.received wr now] ∧
        wr.resource = res ∧ timeSub now wr.timeUsed < r.idleTimeout ∧
        AllEvicted r.idleTimeout pre ∧ r1.resources.buf <:+ r.resources.buf ∧
        r.resources.buf ++ sentWrappers pre = receivedWrappers pre ++ wr :: r1.resources.buf ∧
        SentAfterCreated pre ∧
        ReadingsWithin clock w.tick w1.tick (pre ++ [Event.received wr now]) := by
  induction fuel using Nat.strong_induction_on with
  | _ fuel ih =>
    intro r w res err r1 w1 h
    obtain ⟨addr, fac, ⟨b, cap⟩, idle, cb⟩ := r
    cases fuel with
    | zero => simp [ResourcePool.getLoop] at h
    | succ n =>
      cases b with
      | cons x rest =>
        simp only [ResourcePool.getLoop, closeConn_some] at h
        split_ifs at h with hidle
        · obtain ⟨pre, wr, now, he, ht, hr, hf, hev, hs, hcons, hsent, hread⟩ :=
            ih n (Nat.lt_succ_self n) _ _ _ _ _ _ h
          simp only [World.next, World.emit] at hread
          have hlt := ReadingsWithin_lt clock _ _ _ _ _ hread
          refine ⟨Event.received x (clock w.tick) :: Event.rawClose x.resource :: pre, wr, now,
            he, ?_, hr, hf, AllEvicted_pop _ _ _ _ hidle hev, ?_, ?_, ?_, ?_⟩
          · rw [ht]; simp [World.next, World.emit]
          · exact hs.trans (List.suffix_cons _ _)
          · simp only [sentWrappers, receivedWrappers, List.filterMap_cons, List.cons_append]
              at hcons ⊢
            rw [hcons]
          · apply SentAfterCreated_cons _ _ (by intro _ hh; cases hh)
            exact SentAfterCreated_cons _ _ (by intro _ hh; cases hh) hsent
          · intro wr1 now1 hm
            simp only [List.cons_append, List.mem_cons] at hm
            rcases hm with hm | hm | hm
            · simp only [Event.received.injEq] at hm
              exact ⟨w.tick, le_refl _, by omega, hm.2⟩
            · cases hm
            · obtain ⟨t, h1, h2, h3⟩ := hread wr1 now1 hm
              exact ⟨t, by omega, h2, h3⟩
        · simp only [Option.some.injEq, Except.ok.injEq, Prod.mk.injEq] at h
          obtain ⟨rfl, rfl, rfl, rfl⟩ := h
          refine ⟨[], x, clock w.tick, rfl, ?_, rfl, lt_of_not_ge hidle, AllEvicted_nil _, ?_,
            ?_, SentAfterCreated_nil, ?_⟩
          · simp [World.next, World.emit]
          · exact List.suffix_cons _ _
          · simp [sentWrappers, receivedWrappers]
          · intro wr1 now1 hm
            simp only [List.nil_append, List.mem_singleton, Event.received.injEq] at hm
            exact ⟨w.tick, le_refl _, by simp [World.next, World.emit], hm.2⟩
      | nil =>
        simp only [ResourcePool.getLoop] at h
        split at h
        · simp at h
        · rename_i res0 hfac
          simp only [ResourcePool.enqueue, closeConn_some, List.length_nil, List.nil_append] at h
          split_ifs at h with hcap
          · cases n with
            | zero => simp [ResourcePool.getLoop] at h
            | succ m =>
              simp only [ResourcePool.getLoop, closeConn_some] at h
              split_ifs at h with hidle
              · obtain ⟨pre, wr, now, he, ht, hr, hf, hev, hs, hcons, hsent, hread⟩ :=
                  ih m (by omega) _ _ _ _ _ _ h
                simp only [World.next, World.emit] at hread
                have hlt := ReadingsWithin_lt clock _ _ _ _ _ hread
                refine ⟨Event.created res0 :: Event.sent ⟨res0, clock w.tick⟩ ::
                  Event.received ⟨res0, clock w.tick⟩ (clock (w.tick + 1)) ::
                  Event.rawClose res0 :: pre, wr, now, he, ?_, hr, hf, ?_, hs, ?_, ?_, ?_⟩
                · rw [ht]; simp [World.next, World.emit]
                · apply AllEvicted_cons _ _ _ (by intro _ _ hh; cases hh)
                  apply AllEvicted_cons _ _ _ (by intro _ _ hh; cases hh)
                  exact AllEvicted_pop _ ⟨res0, clock w.tick⟩ _ _ hidle hev
                · simp only [sentWrappers, receivedWrappers, List.filterMap_cons,
                    List.nil_append, List.cons_append] at hcons ⊢
                  rw [hcons]
                · apply SentAfterCreated_create
                  apply SentAfterCreated_cons _ _ (by intro _ hh; cases hh)
                  exact SentAfterCreated_cons _ _ (by intro _ hh; cases hh) hsent
                · intro wr1 now1 hm
                  simp only [List.cons_append, List.mem_cons] at hm
                  rcases hm with hm | hm | hm | hm | hm
                  · cases hm
                  · cases hm
                  · simp only [Event.received.injEq] at hm
                    exact ⟨w.tick + 1, by omega, by omega, hm.2⟩
                  · cases hm
                  · obtain ⟨t, h1, h2, h3⟩ := hread wr1 now1 hm
                    exact ⟨t, by omega, h2, h3⟩
              · simp only [Option.some.injEq, Except.ok.injEq, Prod.mk.injEq] at h
                obtain ⟨rfl, rfl, rfl, rfl⟩ := h
                refine ⟨[Event.created res0, Event.sent ⟨res0, clock w.tick⟩],
                  ⟨res0, clock w.tick⟩, clock (w.tick + 1), rfl, ?_, rfl, lt_of_not_ge hidle,
                  ?_, List.suffix_refl _, ?_, ?_, ?_⟩
                · simp [World.next, World.emit]
                · apply AllEvicted_cons _ _ _ (by intro _ _ hh; cases hh)
                  apply AllEvicted_cons _ _ _ (by intro _ _ hh; cases hh)
                  exact AllEvicted_nil _
                · simp [sentWrappers, receivedWrappers]
                · exact SentAfterCreated_create _ _ _ SentAfterCreated_nil
                · intro wr1 now1 hm
                  simp only [List.cons_append, List.nil_append, List.mem_cons,
                    List.mem_singleton] at hm
                  rcases hm with hm | hm | hm
                  · cases hm
                  · cases hm
                  · simp only [Event.received.injEq, List.not_mem_nil, or_false] at hm
                    exact ⟨w.tick + 1, by omega, by simp [World.next, World.emit], hm.2⟩
          · obtain ⟨pre, wr, now, he, ht, hr, hf, hev, hs, hcons, hsent, hread⟩ :=
              ih n (Nat.lt_succ_self n) _ _ _ _ _ _ h
            simp only [World.next, World.emit] at hread
            refine ⟨Event.created res0 :: Event.rawClose res0 :: pre, wr, now, he, ?_, hr, hf,
              ?_, hs, ?_, ?_, ?_⟩
            · rw [ht]; simp [World.next, World.emit]
            · apply AllEvicted_cons _ _ _ (by intro _ _ hh; cases hh)
              apply AllEvicted_cons _ _ _ (by intro _ _ hh; cases hh)
              exact hev
            · simp only [sentWrappers, receivedWrappers, List.filterMap_cons,
                List.nil_append] at hcons ⊢
              exact hcons
            · apply SentAfterCreated_cons _ _ (by intro _ hh; cases hh)
              exact SentAfterCreated_cons _ _ (by intro _ hh; cases hh) hsent
            · intro wr1 now1 hm
              simp only [List.cons_append, List.mem_cons] at hm
              rcases hm with hm | hm | hm
              · cases hm
              · cases hm
              · obtain ⟨t, h1, h2, h3⟩ := hread wr1 now1 hm
                exact ⟨t, by omega, h2, h3⟩

/-- C6: when `Get` returns a resource, the last event of the call is the pop of that resource
and its idle age at that pop (`timeSub now timeUsed`, the value the code compares) is below
`idleTimeout`; every earlier pop of the call found an age of at least `idleTimeout` and is
followed at once by the `RawClose` of the popped resource. The pops account for everything
that left the queue: the queue found, followed by the wrappers sent during the call, is the
list of the wrappers popped, followed by the queue left behind. Nothing popped is put back:
every send of the call comes right after the creation of the resource it sends, and the
queue left behind is a suffix of the queue found. The reading of every pop is a clock
reading taken during the call. -/
theorem Get_hands_out_only_fresh_resources (clock : Nat → Int) (fuel : Nat) (r : ResourcePool)
    (ctx : Option Context) (w : World) (res : Resource) (err : Option Error)
    (r1 : Option ResourcePool) (w1 : World)
    (h : ResourcePool.Get clock fuel (some r) ctx w = some (.ok (some res, err, r1, w1))) :
    ∃ pre wr now r2, r1 = some r2 ∧ err = none ∧
      w1.trace = w.trace ++ pre ++ [Event.received wr now] ∧ wr.resource = res ∧
      timeSub now wr.timeUsed < r.idleTimeout ∧
      (∀ a b wr1 now1, pre = a ++ Event.received wr1 now1 :: b →
        r.idleTimeout ≤ timeSub now1 wr1.timeUsed ∧
        ∃ b1, b = Event.rawClose wr1.resource :: b1) ∧
      r2.resources.buf <:+ r.resources.buf ∧
      r.resources.buf ++ sentWrappers pre = receivedWrappers pre ++ wr :: r2.resources.buf ∧
      (∀ a b sw, pre = a ++ Event.sent sw :: b →
        ∃ a1, a = a1 ++ [Event.created sw.resource]) ∧
      (∀ wr1 now1, Event.received wr1 now1 ∈ pre ++ [Event.received wr now] →
        ∃ t, w.tick ≤ t ∧ t < w1.tick ∧ now1 = clock t) := by
  simp only [ResourcePool.Get, ResourcePool.get] at h
  split at h
  · simp at h
  · split_ifs at h
    · simp at h
    · split at h
      · simp at h
      · simp at h
      · rename_i hloop
        simp only [Option.some.injEq, Except.ok.injEq, Prod.mk.injEq] at h
        obtain ⟨rfl, rfl, rfl, rfl⟩ := h
        obtain ⟨pre, wr, now, he, ht, hr, hf, hev, hs, hcons, hsent, hread⟩ :=
          getLoop_accounted clock fuel _ _ _ _ _ _ hloop
        exact ⟨pre, wr, now, _, rfl, he, ht, hr, hf, hev, hs, hcons, hsent, hread⟩

/-- Witness for C6: on `agedPool` the wrapper stamped at 100ns is popped at 1000ns and
closed, the one stamped at 900ns is popped at 1001ns and returned. -/
theorem Get_hands_out_only_fresh_resources_witness :
    ∃ r1 w1,
      ResourcePool.Get demoClock 2 (some agedPool) ctxLive world0 =
        some (.ok (some { id := 2, address := "A", rawCloseFails := false,
                          circuitBreaker := none }, none, r1, w1)) ∧
      w1.trace =
        [Event.received
            { resource := { id := 1, address := "A", rawCloseFails := false,
                            circuitBreaker := none }, timeUsed := 100 } 1000,
          Event.rawClose { id := 1, address := "A", rawCloseFails := false,
                           circuitBreaker := none },
          Event.received
            { resource := { id := 2, address := "A", rawCloseFails := false,
                            circuitBreaker := none }, timeUsed := 900 } 1001] ∧
      ∃ pre wr now r2, r1 = some r2 ∧ (none : Option Error) = none ∧
        w1.trace = world0.trace ++ pre ++ [Event.received wr now] ∧
        wr.resource = { id := 2, address := "A", rawCloseFails := false,
                        circuitBreaker := none } ∧
        timeSub now wr.timeUsed < agedPool.idleTimeout ∧
        (∀ a b wr1 now1, pre = a ++ Event.received wr1 now1 :: b →
          agedPool.idleTimeout ≤ timeSub now1 wr1.timeUsed ∧
          ∃ b1, b = Event.rawClose wr1.resource :: b1) ∧
        r2.resources.buf <:+ agedPool.resources.buf ∧
        agedPool.resources.buf ++ sentWrappers pre =
          receivedWrappers pre ++ wr :: r2.resources.buf ∧
        (∀ a b sw, pre = a ++ Event.sent sw :: b →
          ∃ a1, a = a1 ++ [Event.created sw.resource]) ∧
        (∀ wr1 now1, Event.received wr1 now1 ∈ pre ++ [Event.received wr now] →
          ∃ t, world0.tick ≤ t ∧ t < w1.tick ∧ now1 = demoClock t) :=
  ⟨_, _, rfl, rfl,
    Get_hands_out_only_fresh_resources demoClock 2 agedPool ctxLive world0
      { id := 2, address := "A", rawCloseFails := false, circuitBreaker := none } none _ _ rfl⟩

/-! ## BreakerGroup.GetAvailable -/

theorem scan_all_open (clock : Nat → Int) (gm : BreakerGroup) (hN : 0 < gm.Breakers.length) :
    ∀ (n idx tick : Nat),
      (∀ k, k < n → gm.openAt clock (idx + 1 + k) (tick + k) = true) →
      BreakerGroup.scan clock gm gm.Breakers.length n idx tick = .ok (none, tick + n) := by
  intro n
  induction n with
  | zero => intro idx tick _; rfl
  | succ n ih =>
    intro idx tick h
    have h0 := h 0 (Nat.succ_pos n)
    simp only [BreakerGroup.openAt, Nat.add_zero] at h0
    have hlt : (idx + 1) % gm.Breakers.length < gm.Breakers.length := Nat.mod_lt _ hN
    obtain ⟨ss, hss⟩ : ∃ ss, gm.Breakers[(idx + 1) % gm.Breakers.length]? = some ss :=
      ⟨_, List.getElem?_eq_getElem hlt⟩
    simp only [hss] at h0
    simp only [BreakerGroup.scan, hss, h0, if_true]
    have hrec := ih (idx + 1) (tick + 1) (by
      intro k hk
      have := h (k + 1) (by omega)
      rw [show idx + 1 + (k + 1) = idx + 1 + 1 + k by omega,
        show tick + (k + 1) = tick + 1 + k by omega] at this
      exact this)
    rw [hrec, show tick + 1 + n = tick + (n + 1) by omega]

theorem scan_first_closed (clock : Nat → Int) (gm : BreakerGroup)
    (hN : 0 < gm.Breakers.length) :
    ∀ (n idx tick k : Nat), k < n →
      gm.openAt clock (idx + 1 + k) (tick + k) = false →
      (∀ j, j < k → gm.openAt clock (idx + 1 + j) (tick + j) = true) →
      BreakerGroup.scan clock gm gm.Breakers.length n idx tick =
        .ok (some ((idx + 1 + k) % gm.Breakers.length), tick + k + 1) := by
  intro n
  induction n with
  | zero => intro idx tick k hk; omega
  | succ n ih =>
    intro idx tick k hk hc ho
    have hlt : (idx + 1) % gm.Breakers.length < gm.Breakers.length := Nat.mod_lt _ hN
    obtain ⟨ss, hss⟩ : ∃ ss, gm.Breakers[(idx + 1) % gm.Breakers.length]? = some ss :=
      ⟨_, List.getElem?_eq_getElem hlt⟩
    simp only [BreakerGroup.scan, hss]
    cases k with
    | zero =>
      simp only [BreakerGroup.openAt, Nat.add_zero, hss] at hc
      simp [hc]
    | succ k =>
      have h0 := ho 0 (Nat.succ_pos k)
      simp only [BreakerGroup.openAt, Nat.add_zero, hss] at h0
      simp only [h0, if_true]
      have hrec := ih (idx + 1) (tick + 1) k (by omega)
        (by
          rw [show idx + 1 + 1 + k = idx + 1 + (k + 1) by omega,
            show tick + 1 + k = tick + (k + 1) by omega]
          exact hc)
        (by
          intro j hj
          have := ho (j + 1) (by omega)
          rw [show idx + 1 + (j + 1) = idx + 1 + 1 + j by omega,
            show tick + (j + 1) = tick + 1 + j by omega] at this
          exact this)
      rw [hrec, show idx + 1 + 1 + k = idx + 1 + (k + 1) by omega,
        show tick + 1 + k + 1 = tick + (k + 1) + 1 by omega]

theorem openAt_eq (gm : BreakerGroup) (clock : Nat → Int) (i t : Nat)
    (hN : 0 < gm.Breakers.length) :
    ∃ b, gm.Breakers[i % gm.Breakers.length]? = some b ∧
      gm.openAt clock i t = b.isOpen (clock t) := by
  have hlt : i % gm.Breakers.length < gm.Breakers.length := Nat.mod_lt _ hN
  refine ⟨gm.Breakers[i % gm.Breakers.length], List.getElem?_eq_getElem hlt, ?_⟩
  simp [BreakerGroup.openAt, List.getElem?_eq_getElem hlt]

theorem GetAvailable_first_closed (clock : Nat → Int) (gm : BreakerGroup) (w : World)
    (hN : 0 < gm.Breakers.length) (k : Nat) (hk : k < gm.Breakers.length)
    (hc : gm.openAt clock ((gm.counter + 1) % 2 ^ 64 % gm.Breakers.length + k) (w.tick + k)
      = false)
    (ho : ∀ j, j < k →
      gm.openAt clock ((gm.counter + 1) % 2 ^ 64 % gm.Breakers.length + j) (w.tick + j) = true) :
    gm.GetAvailable clock w =
      .ok (some (((gm.counter + 1) % 2 ^ 64 % gm.Breakers.length + k) % gm.Breakers.length),
        none, { gm with counter := (gm.counter + 1) % 2 ^ 64 },
        { w with tick := w.tick + k + 1 }) := by
  have hlt : (gm.counter + 1) % 2 ^ 64 % gm.Breakers.length < gm.Breakers.length :=
    Nat.mod_lt _ hN
  have hss := List.getElem?_eq_getElem hlt
  simp only [BreakerGroup.GetAvailable, Nat.ne_of_gt hN, if_false, hss]
  cases k with
  | zero =>
    have hmm : (gm.counter + 1) % 2 ^ 64 % gm.Breakers.length % gm.Breakers.length =
        (gm.counter + 1) % 2 ^ 64 % gm.Breakers.length := Nat.mod_mod _ _
    simp only [BreakerGroup.openAt, Nat.add_zero, hmm, hss] at hc
    simp only [hc, Bool.not_false, if_true, Nat.add_zero, hmm, World.next]
  | succ k =>
    have h0 := ho 0 (Nat.succ_pos k)
    have hmm : (gm.counter + 1) % 2 ^ 64 % gm.Breakers.length % gm.Breakers.length =
        (gm.counter + 1) % 2 ^ 64 % gm.Breakers.length := Nat.mod_mod _ _
    simp only [BreakerGroup.openAt, Nat.add_zero, hmm, hss] at h0
    have hscan := scan_first_closed clock gm hN (gm.Breakers.length - 1)
      ((gm.counter + 1) % 2 ^ 64 % gm.Breakers.length) (w.tick + 1) k (by omega)
      (by
        rw [show (gm.counter + 1) % 2 ^ 64 % gm.Breakers.length + 1 + k =
            (gm.counter + 1) % 2 ^ 64 % gm.Breakers.length + (k + 1) by omega,
          show w.tick + 1 + k = w.tick + (k + 1) by omega]
        exact hc)
      (by
        intro j hj
        have := ho (j + 1) (by omega)
        rw [show (gm.counter + 1) % 2 ^ 64 % gm.Breakers.length + (j + 1) =
            (gm.counter + 1) % 2 ^ 64 % gm.Breakers.length + 1 + j by omega,
          show w.tick + (j + 1) = w.tick + 1 + j by omega] at this
        exact this)
    simp only [h0, Bool.not_true, Bool.false_eq_true, if_false, hscan]
    rw [show (gm.counter + 1) % 2 ^ 64 % gm.Breakers.length + 1 + k =
        (gm.counter + 1) % 2 ^ 64 % gm.Breakers.length + (k + 1) by omega,
      show w.tick + 1 + k + 1 = w.tick + (k + 1) + 1 by omega]

theorem GetAvailable_all_open (clock : Nat → Int) (gm : BreakerGroup) (w : World)
    (hN : 0 < gm.Breakers.length)
    (ho : ∀ j, j < gm.Breakers.length →
      gm.openAt clock ((gm.counter + 1) % 2 ^ 64 % gm.Breakers.length + j) (w.tick + j) = true) :
    gm.GetAvailable clock w =
      .ok (none, some ErrAllDead, { gm with counter := (gm.counter + 1) % 2 ^ 64 },
        { w with tick := w.tick + gm.Breakers.length }) := by
  have hlt : (gm.counter + 1) % 2 ^ 64 % gm.Breakers.length < gm.Breakers.length :=
    Nat.mod_lt _ hN
  have hss := List.getElem?_eq_getElem hlt
  have hmm : (gm.counter + 1) % 2 ^ 64 % gm.Breakers.length % gm.Breakers.length =
      (gm.counter + 1) % 2 ^ 64 % gm.Breakers.length := Nat.mod_mod _ _
  have h0 := ho 0 hN
  simp only [BreakerGroup.openAt, Nat.add_zero, hmm, hss] at h0
  have hscan := scan_all_open clock gm hN (gm.Breakers.length - 1)
    ((gm.counter + 1) % 2 ^ 64 % gm.Breakers.length) (w.tick + 1)
    (by
      intro j hj
      have := ho (j + 1) (by omega)
      rw [show (gm.counter + 1) % 2 ^ 64 % gm.Breakers.length + (j + 1) =
          (gm.counter + 1) % 2 ^ 64 % gm.Breakers.length + 1 + j by omega,
        show w.tick + (j + 1) = w.tick + 1 + j by omega] at this
      exact this)
  simp only [BreakerGroup.GetAvailable, Nat.ne_of_gt hN, if_false, hss, h0, Bool.not_true,
    Bool.false_eq_true, hscan]
  rw [show w.tick + 1 + (gm.Breakers.length - 1) = w.tick + gm.Breakers.length by omega]

theorem cyclic_reaches (N idx p : Nat) (hidx : idx < N) (hp : p < N) :
    (p + N - idx) % N < N ∧ (idx + (p + N - idx) % N) % N = p := by
  have hN : 0 < N := by omega
  refine ⟨Nat.mod_lt _ hN, ?_⟩
  rw [Nat.add_mod, Nat.mod_mod, ← Nat.add_mod, show idx + (p + N - idx) = p + N by omega,
    Nat.add_mod_right, Nat.mod_eq_of_lt hp]

/-- C7 as stated fails: with three closed breakers and the counter at `2^64 - 1` the call sets
the counter to `0`, not to `c + 1`, and returns breaker `0`, not breaker `(c + 1) mod 3 = 1`;
and a group whose single breaker is open has exactly one breaker open and returns nil. -/
theorem GetAvailable_counter_wraps_to_zero :
    (wrapGroup.GetAvailable demoClock world0 =
        .ok (some 0, none, { wrapGroup with counter := 0 }, world0.next) ∧
      (∀ b ∈ wrapGroup.Breakers, ∀ now, b.isOpen now = false) ∧
      (0 : Nat) ≠ wrapGroup.counter + 1 ∧
      (0 : Nat) ≠ (wrapGroup.counter + 1) % wrapGroup.Breakers.length) ∧
    ((loneOpenGroup.Breakers.filter (fun b => b.isOpen 1000)).length = 1 ∧
      loneOpenGroup.GetAvailable (fun _ => 1000) world0 =
        .ok (none, some ErrAllDead, { loneOpenGroup with counter := 1 }, world0.next)) := by
  refine ⟨⟨rfl, ?_, by decide, by decide⟩, by decide, rfl⟩
  intro b hb now
  simp only [wrapGroup, List.mem_cons, List.mem_singleton, List.not_mem_nil, or_false] at hb
  rcases hb with rfl | rfl | rfl <;> rfl

/-- C7 (amended): on a group of `N >= 1` breakers `GetAvailable` never faults, sets the counter
to `c = (counter + 1) mod 2^64` and, with `idx = c mod N`, checks the breakers in the cyclic
order `idx, idx + 1, ...`, the check number `k` taking clock reading `tick + k`. It returns
the first breaker found closed, with a nil error; it returns nil if and only if every check
finds its breaker open, and then (and only then) the error is "All pools were dead". A
returned breaker was closed at the reading of its check; and with two or more breakers of
which exactly one is open during the call (breaker `j` open and every other breaker closed
at every reading of the call), the breaker returned is not `j` and is closed. -/
theorem GetAvailable_returns_first_closed_breaker (clock : Nat → Int) (gm : BreakerGroup) (w : World)
    (N c idx : Nat) (hN : N = gm.Breakers.length) (h1 : 1 ≤ N)
    (hc : c = (gm.counter + 1) % 2 ^ 64) (hidx : idx = c % N) :
    ∃ sel err w1,
      gm.GetAvailable clock w = .ok (sel, err, { gm with counter := c }, w1) ∧
      (∀ k, k < N → gm.openAt clock (idx + k) (w.tick + k) = false →
        (∀ j, j < k → gm.openAt clock (idx + j) (w.tick + j) = true) →
        sel = some ((idx + k) % N) ∧ err = none) ∧
      (sel = none ↔ ∀ k, k < N → gm.openAt clock (idx + k) (w.tick + k) = true) ∧
      (sel = none ↔ err = some ErrAllDead) ∧
      (∀ i, sel = some i → err = none ∧ ∃ b k, k < N ∧ gm.Breakers[i]? = some b ∧
        b.isOpen (clock (w.tick + k)) = false) ∧
      (∀ j bj, 2 ≤ N → gm.Breakers[j]? = some bj →
        (∀ k, k < N → bj.isOpen (clock (w.tick + k)) = true) →
        (∀ p b, p ≠ j → gm.Breakers[p]? = some b →
          ∀ k, k < N → b.isOpen (clock (w.tick + k)) = false) →
        ∃ i b k, sel = some i ∧ i ≠ j ∧ err = none ∧ k < N ∧ gm.Breakers[i]? = some b ∧
          b.isOpen (clock (w.tick + k)) = false) := by
  subst hN hc hidx
  have hpos : 0 < gm.Breakers.length := h1
  have hidxlt : (gm.counter + 1) % 2 ^ 64 % gm.Breakers.length < gm.Breakers.length :=
    Nat.mod_lt _ hpos
  -- with two or more breakers of which all but one are closed throughout the call, some
  -- check finds a closed breaker
  have hother : ∀ j, 2 ≤ gm.Breakers.length →
      (∀ (p : Nat) (b : CircuitBreaker), p ≠ j → gm.Breakers[p]? = some b →
        ∀ k, k < gm.Breakers.length → b.isOpen (clock (w.tick + k)) = false) →
      ¬ ∀ k, k < gm.Breakers.length →
        gm.openAt clock ((gm.counter + 1) % 2 ^ 64 % gm.Breakers.length + k) (w.tick + k)
          = true := by
    intro j h2 hoth hall
    obtain ⟨p, hp, hpj⟩ : ∃ p, p < gm.Breakers.length ∧ p ≠ j := by
      by_cases hj0 : j = 0
      · exact ⟨1, by omega, by omega⟩
      · exact ⟨0, by omega, fun h => hj0 h.symm⟩
    obtain ⟨hk, hreach⟩ := cyclic_reaches gm.Breakers.length _ p hidxlt hp
    have hopen := hall _ hk
    simp only [BreakerGroup.openAt, hreach, List.getElem?_eq_getElem hp] at hopen
    have hclosed := hoth p _ hpj (List.getElem?_eq_getElem hp) _ hk
    rw [hclosed] at hopen
    exact Bool.noConfusion hopen
  by_cases hall : ∀ k, k < gm.Breakers.length →
      gm.openAt clock ((gm.counter + 1) % 2 ^ 64 % gm.Breakers.length + k) (w.tick + k) = true
  · refine ⟨none, some ErrAllDead, _, GetAvailable_all_open clock gm w hpos hall, ?_, ?_, ?_,
      ?_, ?_⟩
    · intro k hk hclosed _
      rw [hall k hk] at hclosed
      exact Bool.noConfusion hclosed
    · exact ⟨fun _ => hall, fun _ => rfl⟩
    · exact ⟨fun _ => rfl, fun _ => rfl⟩
    · intro i hi
      cases hi
    · intro j bj h2 _ _ hoth
      exact absurd hall (hother j h2 hoth)
  · have hex : ∃ k, k < gm.Breakers.length ∧
        gm.openAt clock ((gm.counter + 1) % 2 ^ 64 % gm.Breakers.length + k) (w.tick + k)
          = false := by
      by_contra hne
      apply hall
      intro k hk
      by_contra hk2
      exact hne ⟨k, hk, by simpa using hk2⟩
    classical
    have hfind := Nat.find_spec hex
    have hmin : ∀ j, j < Nat.find hex →
        gm.openAt clock ((gm.counter + 1) % 2 ^ 64 % gm.Breakers.length + j) (w.tick + j)
          = true := by
      intro j hj
      have := Nat.find_min hex hj
      by_contra hj2
      exact this ⟨lt_trans hj hfind.1, by simpa using hj2⟩
    obtain ⟨b, hb, hbo⟩ := openAt_eq gm clock
      ((gm.counter + 1) % 2 ^ 64 % gm.Breakers.length + Nat.find hex) (w.tick + Nat.find hex)
      hpos
    have hbclosed : b.isOpen (clock (w.tick + Nat.find hex)) = false := by
      rw [← hbo]; exact hfind.2
    refine ⟨_, none, _, GetAvailable_first_closed clock gm w hpos _ hfind.1 hfind.2 hmin, ?_,
      ?_, ?_, ?_, ?_⟩
    · intro k hk hclosed hopen
      have hkeq : k = Nat.find hex := by
        rcases Nat.lt_trichotomy k (Nat.find hex) with h | h | h
        · have := hmin k h
          rw [hclosed] at this
          exact Bool.noConfusion this
        · exact h
        · have := hopen _ h
          rw [hfind.2] at this
          exact Bool.noConfusion this
      rw [hkeq]
      exact ⟨rfl, rfl⟩
    · exact ⟨fun h => Option.noConfusion h, fun h => absurd h hall⟩
    · exact ⟨fun h => Option.noConfusion h, fun h => Option.noConfusion h⟩
    · intro i hi
      simp only [Option.some.injEq] at hi
      subst hi
      exact ⟨rfl, b, _, hfind.1, hb, hbclosed⟩
    · intro j bj _ hj hopen _
      refine ⟨_, b, Nat.find hex, rfl, ?_, rfl, hfind.1, hb, hbclosed⟩
      intro heq
      rw [heq, hj] at hb
      simp only [Option.some.injEq] at hb
      have := hopen _ hfind.1
      rw [hb, hbclosed] at this
      exact Bool.noConfusion this

/-- Witness for C7 (amended): `mixedGroup` before its first call, under a clock that
advances: breaker `1` is open at the three readings of the call and the two others are closed
at all of them; the rotation starts at breaker `1` and the call returns breaker `2`. -/
theorem GetAvailable_returns_first_closed_breaker_witness :
    3 = mixedGroup.Breakers.length ∧ 1 ≤ 3 ∧ 1 = (mixedGroup.counter + 1) % 2 ^ 64 ∧
    1 = 1 % 3 ∧
    mixedGroup.GetAvailable demoClock world0 =
      .ok (some 2, none, { mixedGroup with counter := 1 }, { world0 with tick := 2 }) ∧
    mixedGroup.Breakers[1]? = some (trippedBreaker "B") ∧
    (∀ k, k < 3 → (trippedBreaker "B").isOpen (demoClock (world0.tick + k)) = true) ∧
    (∀ p b, p ≠ 1 → mixedGroup.Breakers[p]? = some b →
      ∀ k, k < 3 → b.isOpen (demoClock (world0.tick + k)) = false) ∧
    ∃ sel err w1,
      mixedGroup.GetAvailable demoClock world0 =
        .ok (sel, err, { mixedGroup with counter := 1 }, w1) ∧
      (∀ k, k < 3 → mixedGroup.openAt demoClock (1 + k) (world0.tick + k) = false →
        (∀ j, j < k → mixedGroup.openAt demoClock (1 + j) (world0.tick + j) = true) →
        sel = some ((1 + k) % 3) ∧ err = none) ∧
      (sel = none ↔ ∀ k, k < 3 → mixedGroup.openAt demoClock (1 + k) (world0.tick + k) = true) ∧
      (sel = none ↔ err = some ErrAllDead) ∧
      (∀ i, sel = some i → err = none ∧ ∃ b k, k < 3 ∧ mixedGroup.Breakers[i]? = some b ∧
        b.isOpen (demoClock (world0.tick + k)) = false) ∧
      (∀ j bj, 2 ≤ 3 → mixedGroup.Breakers[j]? = some bj →
        (∀ k, k < 3 → bj.isOpen (demoClock (world0.tick + k)) = true) →
        (∀ p b, p ≠ j → mixedGroup.Breakers[p]? = some b →
          ∀ k, k < 3 → b.isOpen (demoClock (world0.tick + k)) = false) →
        ∃ i b k, sel = some i ∧ i ≠ j ∧ err = none ∧ k < 3 ∧
          mixedGroup.Breakers[i]? = some b ∧
          b.isOpen (demoClock (world0.tick + k)) = false) :=
  have hopen : ∀ k, k < 3 → (trippedBreaker "B").isOpen (demoClock (world0.tick + k)) = true := by
    intro k hk
    match k, hk with
    | 0, _ => decide
    | 1, _ => decide
    | 2, _ => decide
    | n + 3, h => exact absurd h (by omega)
  have hclosed : ∀ p b, p ≠ 1 → mixedGroup.Breakers[p]? = some b →
      ∀ k, k < 3 → b.isOpen (demoClock (world0.tick + k)) = false := by
    intro p b hp hb k _
    match p, hp, hb with
    | 0, _, hb =>
      simp only [mixedGroup, List.getElem?_cons_zero, Option.some.injEq] at hb
      rw [← hb]; rfl
    | 1, hp, _ => exact absurd rfl hp
    | 2, _, hb =>
      simp only [mixedGroup, List.getElem?_cons_succ, List.getElem?_cons_zero,
        Option.some.injEq] at hb
      rw [← hb]; rfl
    | n + 3, _, hb => simp [mixedGroup] at hb
  ⟨rfl, by decide, rfl, rfl, rfl, rfl, hopen, hclosed,
    GetAvailable_returns_first_closed_breaker demoClock mixedGroup world0 3 1 1 rfl
      (by decide) rfl rfl⟩

/-! ## Round-robin rotation -/

theorem foldl_AddBreaker (bs : List CircuitBreaker) :
    ∀ gm : BreakerGroup, bs.foldl BreakerGroup.AddBreaker gm =
      { Breakers := gm.Breakers ++ bs, counter := gm.counter } := by
  induction bs with
  | nil => intro gm; simp
  | cons b bs ih => intro gm; simp [ih, BreakerGroup.AddBreaker]

theorem GetAvailable_all_closed (clock : Nat → Int) (gm : BreakerGroup) (w : World)
    (hN : 0 < gm.Breakers.length)
    (hclosed : ∀ b ∈ gm.Breakers, ∀ now, b.isOpen now = false) :
    gm.GetAvailable clock w =
      .ok (some ((gm.counter + 1) % 2 ^ 64 % gm.Breakers.length), none,
        { gm with counter := (gm.counter + 1) % 2 ^ 64 }, w.next) := by
  have hlt : (gm.counter + 1) % 2 ^ 64 % gm.Breakers.length < gm.Breakers.length :=
    Nat.mod_lt _ hN
  have hss := List.getElem?_eq_getElem hlt
  have hc := hclosed _ (List.getElem_mem hlt) (clock w.tick)
  simp only [BreakerGroup.GetAvailable, Nat.ne_of_gt hN, if_false, hss, hc, Bool.not_false,
    if_true]

theorem GetAvailableTimes_all_closed (clock : Nat → Int) (bs : List CircuitBreaker) (w : World)
    (hN : 0 < bs.length) (hclosed : ∀ b ∈ bs, ∀ now, b.isOpen now = false) :
    ∀ k, ∃ sel, GetAvailableTimes clock k { Breakers := bs, counter := 0 } w =
        .ok (sel, none, { Breakers := bs, counter := k % 2 ^ 64 },
          { w with tick := w.tick + k }) ∧
      (1 ≤ k → sel = some (k % 2 ^ 64 % bs.length)) := by
  intro k
  induction k with
  | zero => exact ⟨none, rfl, fun h => absurd h (by decide)⟩
  | succ k ih =>
    obtain ⟨sel, h, -⟩ := ih
    refine ⟨some ((k + 1) % 2 ^ 64 % bs.length), ?_, fun _ => rfl⟩
    simp only [GetAvailableTimes, h]
    rw [GetAvailable_all_closed clock _ _ hN hclosed]
    simp only [World.next, Nat.mod_add_mod]
    rfl

theorem rotation_perm (N m : Nat) (hN : 0 < N) :
    List.Perm ((List.range N).map (fun j => (m + 1 + j) % N)) (List.range N) := by
  apply List.Subperm.perm_of_length_le
  · apply List.subperm_of_subset
    · apply List.Nodup.map_on _ (List.nodup_range N)
      intro i hi j hj hij
      simp only [List.mem_range] at hi hj
      have h1 : Nat.ModEq N (m + 1 + i) (m + 1 + j) := hij
      have h2 : Nat.ModEq N i j := Nat.ModEq.add_left_cancel' (m + 1) h1
      unfold Nat.ModEq at h2
      rwa [Nat.mod_eq_of_lt hi, Nat.mod_eq_of_lt hj] at h2
    · intro x hx
      simp only [List.mem_map, List.mem_range] at hx
      obtain ⟨j, -, rfl⟩ := hx
      exact List.mem_range.mpr (Nat.mod_lt _ hN)
  · simp

theorem threeClosed_eq :
    threeClosed = { Breakers := threeBreakers, counter := 0 } :=
  rfl

theorem threeClosed_closed :
    ∀ b ∈ threeBreakers, ∀ now : Int, b.isOpen now = false := by
  intro b hb now
  simp only [threeBreakers, List.mem_cons, List.mem_singleton, List.not_mem_nil, or_false] at hb
  rcases hb with rfl | rfl | rfl <;> rfl

/-- C8 as stated fails: on three breakers that stay closed, the calls number `2^64 - 1` and
`2^64` both return breaker `0`, while `2^64 mod 3 = 1`: the rotation counter wraps to zero, so
the call number `2^64` does not return `Breakers[k mod N]` and three consecutive calls around
the wrap return breaker `0` twice. -/
theorem rotation_repeats_at_counter_wrap :
    selection (GetAvailableTimes demoClock (2 ^ 64 - 1) threeClosed world0) = some 0 ∧
    selection (GetAvailableTimes demoClock (2 ^ 64) threeClosed world0) = some 0 ∧
    2 ^ 64 % threeClosed.Breakers.length = 1 := by
  refine ⟨?_, ?_, by decide⟩
  · obtain ⟨sel, h, hsel⟩ := GetAvailableTimes_all_closed demoClock threeBreakers world0
      (by decide) threeClosed_closed (2 ^ 64 - 1)
    rw [threeClosed_eq, h, hsel (by decide)]
    decide
  · obtain ⟨sel, h, hsel⟩ := GetAvailableTimes_all_closed demoClock threeBreakers world0
      (by decide) threeClosed_closed (2 ^ 64)
    rw [threeClosed_eq, h, hsel (by decide)]
    decide

/-- C8 (amended): on a new group to which `N >= 1` breakers were added and which all stay
closed, the call number `k` returns `Breakers[k mod N]` for every `1 <= k < 2^64`, and any `N`
consecutive calls that end before call number `2^64` return each of the `N` breakers exactly
once (the breakers returned are a permutation of all positions). -/
theorem GetAvailable_rotates_until_counter_wrap (clock : Nat → Int) (bs : List CircuitBreaker) (w : World)
    (hN : 1 ≤ bs.length) (hclosed : ∀ b ∈ bs, ∀ now, b.isOpen now = false) :
    (∀ k, 1 ≤ k → k < 2 ^ 64 → ∃ gm1 w1,
      GetAvailableTimes clock k (bs.foldl BreakerGroup.AddBreaker NewBreakerGroup) w =
        .ok (some (k % bs.length), none, gm1, w1)) ∧
    (∀ m, m + bs.length < 2 ^ 64 →
      List.Perm
        ((List.range bs.length).map (fun j =>
          selection (GetAvailableTimes clock (m + 1 + j)
            (bs.foldl BreakerGroup.AddBreaker NewBreakerGroup) w)))
        ((List.range bs.length).map some)) := by
  have hfold : bs.foldl BreakerGroup.AddBreaker NewBreakerGroup =
      { Breakers := bs, counter := 0 } := by
    rw [foldl_AddBreaker]; simp [NewBreakerGroup]
  rw [hfold]
  have hk : ∀ k, 1 ≤ k → k < 2 ^ 64 →
      GetAvailableTimes clock k { Breakers := bs, counter := 0 } w =
        .ok (some (k % bs.length), none, { Breakers := bs, counter := k % 2 ^ 64 },
          { w with tick := w.tick + k }) := by
    intro k h1 h2
    obtain ⟨sel, h, hsel⟩ := GetAvailableTimes_all_closed clock bs w hN hclosed k
    rw [h, hsel h1, Nat.mod_eq_of_lt h2]
  refine ⟨fun k h1 h2 => ⟨_, _, hk k h1 h2⟩, ?_⟩
  intro m hm
  have hmap : (List.range bs.length).map (fun j =>
        selection (GetAvailableTimes clock (m + 1 + j) { Breakers := bs, counter := 0 } w)) =
      ((List.range bs.length).map (fun j => (m + 1 + j) % bs.length)).map some := by
    rw [List.map_map]
    apply List.map_congr_left
    intro j hj
    simp only [List.mem_range] at hj
    rw [hk (m + 1 + j) (by omega) (by omega)]
    rfl
  rw [hmap]
  exact (rotation_perm bs.length m hN).map some

/-- Witness for C8 (amended): three fresh breakers. -/
theorem GetAvailable_rotates_until_counter_wrap_witness :
    1 ≤ threeBreakers.length ∧ (∀ b ∈ threeBreakers, ∀ now : Int, b.isOpen now = false) ∧
    (∀ k, 1 ≤ k → k < 2 ^ 64 → ∃ gm1 w1,
      GetAvailableTimes demoClock k
          (threeBreakers.foldl BreakerGroup.AddBreaker NewBreakerGroup) world0 =
        .ok (some (k % threeBreakers.length), none, gm1, w1)) ∧
    (∀ m, m + threeBreakers.length < 2 ^ 64 →
      List.Perm
        ((List.range threeBreakers.length).map (fun j =>
          selection (GetAvailableTimes demoClock (m + 1 + j)
            (threeBreakers.foldl BreakerGroup.AddBreaker NewBreakerGroup) world0)))
        ((List.range threeBreakers.length).map some)) :=
  have hclosed : ∀ b ∈ threeBreakers, ∀ now : Int, b.isOpen now = false := by
    intro b hb now
    simp only [threeBreakers, List.mem_cons, List.mem_singleton, List.not_mem_nil,
      or_false] at hb
    rcases hb with rfl | rfl | rfl <;> rfl
  ⟨by decide, hclosed,
    GetAvailable_rotates_until_counter_wrap demoClock threeBreakers world0 (by decide) hclosed⟩

/-! ## Cooldown tiers -/

theorem wrapInt64_of_range {x : Int} (h0 : 0 ≤ x) (h1 : x ≤ maxDuration) : wrapInt64 x = x := by
  unfold wrapInt64
  unfold maxDuration at h1
  omega

theorem ReportResult_false_fields (s : CircuitBreaker) (now : Int)
    (hu : 0 ≤ s.TimeToOpenUnit) (h4 : 4 * s.TimeToOpenUnit ≤ maxDuration) :
    (s.ReportResult false now).failCount = (s.failCount + 1) % 2 ^ 64 ∧
    (s.ReportResult false now).TimeToOpenUnit = s.TimeToOpenUnit ∧
    (s.ReportResult false now).MaxTimeToOpen = s.MaxTimeToOpen ∧
    (s.ReportResult false now).Addr = s.Addr ∧
    (s.ReportResult false now).openTime =
      (if (s.failCount + 1) % 2 ^ 64 > 2 then now else s.openTime) ∧
    (s.ReportResult false now).timeToOpen =
      min (if (s.failCount + 1) % 2 ^ 64 > 15 then s.MaxTimeToOpen
        else if (s.failCount + 1) % 2 ^ 64 > 10 then 4 * s.TimeToOpenUnit
        else if (s.failCount + 1) % 2 ^ 64 > 5 then 2 * s.TimeToOpenUnit
        else if (s.failCount + 1) % 2 ^ 64 > 2 then s.TimeToOpenUnit
        else s.timeToOpen) s.MaxTimeToOpen := by
  have w4 : wrapInt64 (4 * s.TimeToOpenUnit) = 4 * s.TimeToOpenUnit :=
    wrapInt64_of_range (by omega) h4
  have w2 : wrapInt64 (2 * s.TimeToOpenUnit) = 2 * s.TimeToOpenUnit :=
    wrapInt64_of_range (by omega) (by omega)
  simp only [CircuitBreaker.ReportResult, CircuitBreaker.openBreaker, Bool.false_eq_true,
    if_false, w4, w2, min_def]
  split_ifs <;> simp_all <;> omega

theorem reportFailures_fields (s : CircuitBreaker) (times : Nat → Int)
    (hf : s.failCount = 0) (ht : s.timeToOpen = 0)
    (hu : 0 ≤ s.TimeToOpenUnit) (hm : 0 ≤ s.MaxTimeToOpen)
    (h4 : 4 * s.TimeToOpenUnit ≤ maxDuration) :
    ∀ n, (reportFailures s times n).failCount = n % 2 ^ 64 ∧
      (reportFailures s times n).TimeToOpenUnit = s.TimeToOpenUnit ∧
      (reportFailures s times n).MaxTimeToOpen = s.MaxTimeToOpen ∧
      (reportFailures s times n).timeToOpen =
        cooldownAfter s.TimeToOpenUnit s.MaxTimeToOpen n := by
  intro n
  induction n with
  | zero => simp [reportFailures, hf, ht, cooldownAfter]
  | succ n ih =>
    obtain ⟨ihf, ihu, ihm, iht⟩ := ih
    obtain ⟨h1, h2, h3, -, -, h6⟩ := ReportResult_false_fields (reportFailures s times n)
      (times n) (by rw [ihu]; exact hu) (by rw [ihu]; exact h4)
    simp only [reportFailures]
    rw [h1, h2, h3, h6, ihf, ihu, ihm, iht, Nat.mod_add_mod]
    refine ⟨rfl, rfl, rfl, ?_⟩
    unfold cooldownAfter
    generalize s.TimeToOpenUnit = u at hu h4 ⊢
    generalize s.MaxTimeToOpen = mx at hm ⊢
    split_ifs <;> omega

theorem closed_start (s : CircuitBreaker)
    (hs : (∃ addr u m, s = NewCircuitBreaker addr u m) ∨
      ∃ s0 now, s = CircuitBreaker.ReportResult s0 true now) :
    s.failCount = 0 ∧ s.timeToOpen = 0 ∧ s.openTime = 0 := by
  rcases hs with ⟨addr, u, m, rfl⟩ | ⟨s0, now, rfl⟩
  · exact ⟨rfl, rfl, rfl⟩
  · exact ⟨rfl, rfl, rfl⟩

/-- C9 as stated fails: on a fresh breaker with unit one second and ceiling ten seconds, after
`2^64 + 3` consecutive failure reports `failCount` has wrapped to `3` and `timeToOpen` is the
unit, one second, not the ceiling, although `2^64 + 3 > 15`. -/
theorem cooldown_drops_after_failCount_wraps :
    (reportFailures (freshBreaker "A") (fun _ => 1000) (2 ^ 64 + 3)).timeToOpen = 1000000000 ∧
    (freshBreaker "A").MaxTimeToOpen = 10000000000 ∧ 15 < 2 ^ 64 + 3 := by
  refine ⟨?_, rfl, by decide⟩
  have h := (reportFailures_fields (freshBreaker "A") (fun _ => 1000) rfl rfl (by decide)
    (by decide) (by decide) (2 ^ 64 + 3)).2.2.2
  rw [h]
  decide

/-- C9 (amended): for a breaker that is fresh or was just reset by a success, with `unit >= 0`,
`max >= 0` and `4 * unit` within int64, after `n` consecutive failure reports `timeToOpen` is
at most `max` for every `n`, and for `n < 2^64` it is `0` for `n <= 2`, `min(unit, max)` for
`3 <= n <= 5`, `min(2 * unit, max)` for `6 <= n <= 10`, `min(4 * unit, max)` for
`11 <= n <= 15` and `max` for `n > 15`. -/
theorem cooldown_tiers_before_failCount_wraps (s : CircuitBreaker) (times : Nat → Int) (n : Nat)
    (hs : (∃ addr u m, s = NewCircuitBreaker addr u m) ∨
      ∃ s0 now, s = CircuitBreaker.ReportResult s0 true now)
    (hu : 0 ≤ s.TimeToOpenUnit) (hm : 0 ≤ s.MaxTimeToOpen)
    (h4 : 4 * s.TimeToOpenUnit ≤ maxDuration) :
    (reportFailures s times n).timeToOpen ≤ s.MaxTimeToOpen ∧
    (n < 2 ^ 64 →
      (n ≤ 2 → (reportFailures s times n).timeToOpen = 0) ∧
      (3 ≤ n → n ≤ 5 →
        (reportFailures s times n).timeToOpen = min s.TimeToOpenUnit s.MaxTimeToOpen) ∧
      (6 ≤ n → n ≤ 10 →
        (reportFailures s times n).timeToOpen = min (2 * s.TimeToOpenUnit) s.MaxTimeToOpen) ∧
      (11 ≤ n → n ≤ 15 →
        (reportFailures s times n).timeToOpen = min (4 * s.TimeToOpenUnit) s.MaxTimeToOpen) ∧
      (15 < n → (reportFailures s times n).timeToOpen = s.MaxTimeToOpen)) := by
  obtain ⟨hf, ht, -⟩ := closed_start s hs
  have h := (reportFailures_fields s times hf ht hu hm h4 n).2.2.2
  rw [h]
  unfold cooldownAfter
  generalize s.TimeToOpenUnit = u at hu h4 ⊢
  generalize s.MaxTimeToOpen = mx at hm ⊢
  refine ⟨?_, fun hn => ⟨?_, ?_, ?_, ?_, ?_⟩⟩
  · split_ifs <;> omega
  · intro h1; split_ifs <;> omega
  · intro h1 h2; split_ifs <;> omega
  · intro h1 h2; split_ifs <;> omega
  · intro h1 h2; split_ifs <;> omega
  · intro h1; split_ifs <;> omega

/-- Witness for C9 (amended): a fresh breaker with unit one second and ceiling ten seconds,
after eleven failures. -/
theorem cooldown_tiers_before_failCount_wraps_witness :
    ((∃ addr u m, freshBreaker "A" = NewCircuitBreaker addr u m) ∨
      ∃ s0 now, freshBreaker "A" = CircuitBreaker.ReportResult s0 true now) ∧
    0 ≤ (freshBreaker "A").TimeToOpenUnit ∧ 0 ≤ (freshBreaker "A").MaxTimeToOpen ∧
    4 * (freshBreaker "A").TimeToOpenUnit ≤ maxDuration ∧
    (reportFailures (freshBreaker "A") demoClock 11).timeToOpen = 4000000000 ∧
    (reportFailures (freshBreaker "A") demoClock 11).timeToOpen ≤
      (freshBreaker "A").MaxTimeToOpen ∧
    (11 < 2 ^ 64 →
      (11 ≤ 2 → (reportFailures (freshBreaker "A") demoClock 11).timeToOpen = 0) ∧
      (3 ≤ 11 → 11 ≤ 5 →
        (reportFailures (freshBreaker "A") demoClock 11).timeToOpen =
          min (freshBreaker "A").TimeToOpenUnit (freshBreaker "A").MaxTimeToOpen) ∧
      (6 ≤ 11 → 11 ≤ 10 →
        (reportFailures (freshBreaker "A") demoClock 11).timeToOpen =
          min (2 * (freshBreaker "A").TimeToOpenUnit) (freshBreaker "A").MaxTimeToOpen) ∧
      (11 ≤ 11 → 11 ≤ 15 →
        (reportFailures (freshBreaker "A") demoClock 11).timeToOpen =
          min (4 * (freshBreaker "A").TimeToOpenUnit) (freshBreaker "A").MaxTimeToOpen) ∧
      (15 < 11 →
        (reportFailures (freshBreaker "A") demoClock 11).timeToOpen =
          (freshBreaker "A").MaxTimeToOpen)) :=
  ⟨Or.inl ⟨_, _, _, rfl⟩, by decide, by decide, by decide, by decide,
    cooldown_tiers_before_failCount_wraps (freshBreaker "A") demoClock 11
      (Or.inl ⟨_, _, _, rfl⟩) (by decide) (by decide) (by decide)⟩

/-! ## Open window -/

/-- C10 as stated fails: with `unit = 2^62 ns` and `max = 2^63 - 1 ns` (so `0 < unit <= max`)
the products `2 * unit` and `4 * unit` overflow int64 to a value that is not positive, and
the breaker is not open at the time of its sixth or of its eleventh consecutive failure. -/
theorem breaker_stays_closed_when_cooldown_overflows :
    0 < hugeUnitBreaker.TimeToOpenUnit ∧
    hugeUnitBreaker.TimeToOpenUnit ≤ hugeUnitBreaker.MaxTimeToOpen ∧
    (reportFailures hugeUnitBreaker (fun _ => 1000) 6).isOpen 1000 = false ∧
    (reportFailures hugeUnitBreaker (fun _ => 1000) 11).isOpen 1000 = false := by
  decide

theorem isOpen_iff (s : CircuitBreaker) (hpos : 0 < s.timeToOpen)
    (hmax : s.timeToOpen ≤ maxDuration) (t1 : Int) (ht : s.openTime ≤ t1) :
    s.isOpen t1 = true ↔ t1 - s.openTime < s.timeToOpen := by
  unfold CircuitBreaker.isOpen timeSub
  unfold maxDuration minDuration at *
  simp only [Bool.and_eq_true, decide_eq_true_eq]
  split_ifs <;> constructor <;> intro h <;> omega

/-- C10 (amended): for a breaker that is fresh or was just reset, with `0 < unit <= max`, `max`
an int64 duration and `4 * unit` not overflowing int64, let the `n`-th consecutive failure,
`n` in `{3, 6, 11, 16}`, be reported at time `t`. Then the breaker is open at `t`; with no
further report it is open at `t1 >= t` exactly when `t1 - t < timeToOpen`, hence closed from
`t + timeToOpen` on; and after a success report it is closed at every time. -/
theorem breaker_open_window_after_threshold (s : CircuitBreaker) (times : Nat → Int) (n : Nat)
    (hs : (∃ addr u m, s = NewCircuitBreaker addr u m) ∨
      ∃ s0 now, s = CircuitBreaker.ReportResult s0 true now)
    (hu : 0 < s.TimeToOpenUnit) (hum : s.TimeToOpenUnit ≤ s.MaxTimeToOpen)
    (hmax : s.MaxTimeToOpen ≤ maxDuration) (h4 : 4 * s.TimeToOpenUnit ≤ maxDuration)
    (hn : n = 3 ∨ n = 6 ∨ n = 11 ∨ n = 16) :
    (reportFailures s times n).isOpen (times (n - 1)) = true ∧
    (∀ t1, times (n - 1) ≤ t1 →
      ((reportFailures s times n).isOpen t1 = true ↔
        t1 - times (n - 1) < (reportFailures s times n).timeToOpen)) ∧
    (∀ t1, times (n - 1) + (reportFailures s times n).timeToOpen ≤ t1 →
      (reportFailures s times n).isOpen t1 = false) ∧
    (∀ now t1, ((reportFailures s times n).ReportResult true now).isOpen t1 = false) := by
  obtain ⟨hf, ht, -⟩ := closed_start s hs
  obtain ⟨m, rfl⟩ : ∃ m, n = m + 1 := ⟨n - 1, by omega⟩
  have hprev := reportFailures_fields s times hf ht (le_of_lt hu) (by omega) h4 m
  have hcur := (reportFailures_fields s times hf ht (le_of_lt hu) (by omega) h4 (m + 1)).2.2.2
  obtain ⟨-, -, -, -, hopen, -⟩ := ReportResult_false_fields (reportFailures s times m)
    (times m) (by rw [hprev.2.1]; exact le_of_lt hu) (by rw [hprev.2.1]; exact h4)
  rw [hprev.1, Nat.mod_add_mod] at hopen
  have hgt : (m + 1) % 2 ^ 64 > 2 := by omega
  rw [if_pos hgt] at hopen
  have hopen1 : (reportFailures s times (m + 1)).openTime = times m := hopen
  have htto : 0 < (reportFailures s times (m + 1)).timeToOpen ∧
      (reportFailures s times (m + 1)).timeToOpen ≤ maxDuration := by
    rw [hcur]
    unfold cooldownAfter
    generalize s.TimeToOpenUnit = u at hu hum h4 ⊢
    generalize s.MaxTimeToOpen = mx at hum hmax ⊢
    unfold maxDuration at *
    split_ifs <;> omega
  have key : ∀ t1, times m ≤ t1 →
      ((reportFailures s times (m + 1)).isOpen t1 = true ↔
        t1 - times m < (reportFailures s times (m + 1)).timeToOpen) := by
    intro t1 h1
    have := isOpen_iff (reportFailures s times (m + 1)) htto.1 htto.2 t1
      (by rw [hopen1]; exact h1)
    rw [hopen1] at this
    exact this
  simp only [Nat.add_sub_cancel]
  refine ⟨?_, key, ?_, ?_⟩
  · rw [key _ (le_refl _)]
    have := htto.1
    omega
  · intro t1 h1
    have hle : times m ≤ t1 := by have := htto.1; omega
    have := key t1 hle
    cases hb : (reportFailures s times (m + 1)).isOpen t1 with
    | false => rfl
    | true =>
      rw [hb] at this
      have := this.mp rfl
      omega
  · intro now t1
    rfl

/-- Witness for C10 (amended): unit one second, ceiling ten seconds, three consecutive
failures, the third reported at `1002ns`: the cooldown is one second and the breaker is open
from `1002ns` until one second later. -/
theorem breaker_open_window_after_threshold_witness :
    ((∃ addr u m, freshBreaker "A" = NewCircuitBreaker addr u m) ∨
      ∃ s0 now, freshBreaker "A" = CircuitBreaker.ReportResult s0 true now) ∧
    0 < (freshBreaker "A").TimeToOpenUnit ∧
    (freshBreaker "A").TimeToOpenUnit ≤ (freshBreaker "A").MaxTimeToOpen ∧
    (freshBreaker "A").MaxTimeToOpen ≤ maxDuration ∧
    4 * (freshBreaker "A").TimeToOpenUnit ≤ maxDuration ∧
    ((3 : Nat) = 3 ∨ (3 : Nat) = 6 ∨ (3 : Nat) = 11 ∨ (3 : Nat) = 16) ∧
    demoClock (3 - 1) = 1002 ∧
    (reportFailures (freshBreaker "A") demoClock 3).timeToOpen = 1000000000 ∧
    ((reportFailures (freshBreaker "A") demoClock 3).isOpen (demoClock (3 - 1)) = true ∧
      (∀ t1, demoClock (3 - 1) ≤ t1 →
        ((reportFailures (freshBreaker "A") demoClock 3).isOpen t1 = true ↔
          t1 - demoClock (3 - 1) <
            (reportFailures (freshBreaker "A") demoClock 3).timeToOpen)) ∧
      (∀ t1, demoClock (3 - 1) +
          (reportFailures (freshBreaker "A") demoClock 3).timeToOpen ≤ t1 →
        (reportFailures (freshBreaker "A") demoClock 3).isOpen t1 = false) ∧
      (∀ now t1,
        ((reportFailures (freshBreaker "A") demoClock 3).ReportResult true now).isOpen t1 =
          false)) :=
  ⟨Or.inl ⟨_, _, _, rfl⟩, by decide, by decide, by decide, by decide, Or.inl rfl, by decide,
    by decide,
    breaker_open_window_after_threshold (freshBreaker "A") demoClock 3
      (Or.inl ⟨_, _, _, rfl⟩) (by decide) (by decide) (by decide) (by decide) (Or.inl rfl)⟩

/-! ## Success and failure reports -/

/-- C11: a success report sets `failCount`, `timeToOpen` and `openTime` to zero and leaves
`Addr`, `TimeToOpenUnit` and `MaxTimeToOpen` as they were, so the state is that of
`NewCircuitBreaker(Addr, TimeToOpenUnit, MaxTimeToOpen)`; afterwards the breaker is closed at
every clock reading. -/
theorem success_report_resets_breaker (s : CircuitBreaker) (now : Int) :
    (s.ReportResult true now).failCount = 0 ∧
    (s.ReportResult true now).timeToOpen = 0 ∧
    (s.ReportResult true now).openTime = 0 ∧
    (s.ReportResult true now).Addr = s.Addr ∧
    (s.ReportResult true now).TimeToOpenUnit = s.TimeToOpenUnit ∧
    (s.ReportResult true now).MaxTimeToOpen = s.MaxTimeToOpen ∧
    s.ReportResult true now = NewCircuitBreaker s.Addr s.TimeToOpenUnit s.MaxTimeToOpen ∧
    ∀ t, (s.ReportResult true now).isOpen t = false :=
  ⟨rfl, rfl, rfl, rfl, rfl, rfl, rfl, fun _ => rfl⟩

/-- C12 as stated fails: a breaker whose `failCount` is `2^64 - 1`, the largest uint64, has
`failCount = 0` after one more failure report, which is not greater than before. -/
theorem failCount_wraps_at_uint64_max :
    saturatedBreaker.failCount < 2 ^ 64 ∧
    (saturatedBreaker.ReportResult false 1000).failCount = 0 ∧
    ¬ saturatedBreaker.failCount < (saturatedBreaker.ReportResult false 1000).failCount := by
  decide

/-- C12 (amended): a failure report on a breaker whose `failCount` is below `2^64 - 1` makes
`failCount` greater by exactly one; at `2^64 - 1` the counter wraps to zero; and right after
a success report `failCount` is zero. -/
theorem failCount_increases_below_uint64_max (s : CircuitBreaker) (now : Int) :
    (s.failCount < 2 ^ 64 - 1 →
      s.failCount < (s.ReportResult false now).failCount ∧
      (s.ReportResult false now).failCount = s.failCount + 1) ∧
    (s.failCount = 2 ^ 64 - 1 → (s.ReportResult false now).failCount = 0) ∧
    (s.ReportResult true now).failCount = 0 := by
  have hfc : (s.ReportResult false now).failCount = (s.failCount + 1) % 2 ^ 64 := by
    simp only [CircuitBreaker.ReportResult, CircuitBreaker.openBreaker, Bool.false_eq_true,
      if_false]
    split_ifs <;> rfl
  refine ⟨fun h => ?_, fun h => ?_, rfl⟩
  · rw [hfc]; omega
  · rw [hfc]; omega

/-- Witness for C12 (amended): a fresh breaker goes from zero failures to one. -/
theorem failCount_increases_below_uint64_max_witness :
    (freshBreaker "A").failCount < 2 ^ 64 - 1 ∧
    ((freshBreaker "A").failCount < ((freshBreaker "A").ReportResult false 1000).failCount ∧
      ((freshBreaker "A").ReportResult false 1000).failCount =
        (freshBreaker "A").failCount + 1) ∧
    ((freshBreaker "A").ReportResult false 1000).failCount = 1 :=
  ⟨by decide, (failCount_increases_below_uint64_max (freshBreaker "A") 1000).1 (by decide),
    by decide⟩

/-- C18: `ReportError` returns true exactly when the error is nil or is not a network error,
false exactly when it is a network error, and leaves the breaker in the state `ReportResult`
gives for the returned flag. -/
theorem ReportError_classifies_network_errors (s : CircuitBreaker) (err : Option Error)
    (now : Int) :
    ((s.ReportError err now).2 = true ↔
      (err = none ∨ ∃ e, err = some e ∧ e.isNet = false)) ∧
    ((s.ReportError err now).2 = false ↔ ∃ e, err = some e ∧ e.isNet = true) ∧
    (s.ReportError err now).1 = s.ReportResult (s.ReportError err now).2 now := by
  cases err with
  | none => simp [CircuitBreaker.ReportError, IsNetErr]
  | some e => cases h : e.isNet <;> simp [CircuitBreaker.ReportError, IsNetErr, h]

/-! ## Put, cancellation and factory failure -/

/-- C15: `Put` with `forceClose = false` on a pool with queue `q` and a resource `x`: when
`len(q) < maxCap` the queue becomes `q` followed by `x` stamped with the current clock reading
and the only event is the send (`x` is not closed); when `len(q) = maxCap` the pool is left
exactly as it was and the only event is the `RawClose` of `x`. -/
theorem Put_pushes_or_drops (clock : Nat → Int) (r : ResourcePool) (x : Resource) (w : World) :
    (r.resources.buf.length < r.resources.cap →
      ResourcePool.Put clock (some r) (some x) false w =
        .ok (some { r with resources :=
              { r.resources with buf := r.resources.buf ++ [⟨x, clock w.tick⟩] } },
          w.next.emit (.sent ⟨x, clock w.tick⟩))) ∧
    (r.resources.buf.length = r.resources.cap →
      ResourcePool.Put clock (some r) (some x) false w =
        .ok (some r, w.next.emit (.rawClose x))) := by
  constructor
  · intro h
    simp only [ResourcePool.Put, Bool.false_eq_true, if_false, ResourcePool.enqueue, h, if_true]
  · intro h
    simp only [ResourcePool.Put, Bool.false_eq_true, if_false, ResourcePool.enqueue, h,
      lt_irrefl, closeConn_some]

/-- Witness for C15: with two resources resident and `maxCap = 2` a third `Put` leaves the
queue as it was and closes the resource; on the empty `demoPool` the resource is queued. -/
theorem Put_pushes_or_drops_witness :
    agedPool.resources.buf.length = agedPool.resources.cap ∧ agedPool.resources.cap = 2 ∧
    ResourcePool.Put demoClock (some agedPool) (some thirdResource) false world0 =
      .ok (some agedPool, world0.next.emit (.rawClose thirdResource)) ∧
    demoPool.resources.buf.length < demoPool.resources.cap ∧
    ResourcePool.Put demoClock (some demoPool) (some thirdResource) false world0 =
      .ok (some { demoPool with resources :=
            { demoPool.resources with
              buf := demoPool.resources.buf ++ [⟨thirdResource, demoClock world0.tick⟩] } },
        world0.next.emit (.sent ⟨thirdResource, demoClock world0.tick⟩)) :=
  ⟨rfl, rfl, (Put_pushes_or_drops demoClock agedPool thirdResource world0).2 rfl, by decide,
    (Put_pushes_or_drops demoClock demoPool thirdResource world0).1 (by decide)⟩

/-- C16: when the context is canceled at entry `Get` returns a nil resource with `ErrTimeout`
and leaves the pool and the world (clock readings, factory invocations, events) as they
were; when it is not canceled at entry the result is the same for every context, whatever
happens to the context later. -/
theorem Get_checks_cancellation_once_at_entry (clock : Nat → Int) (fuel : Nat) (r : Option ResourcePool) (w : World) :
    (∀ c : Context, c.canceled = true →
      ResourcePool.Get clock fuel r (some c) w = some (.ok (none, some ErrTimeout, r, w))) ∧
    (∀ c1 c2 : Context, c1.canceled = false → c2.canceled = false →
      ResourcePool.Get clock fuel r (some c1) w = ResourcePool.Get clock fuel r (some c2) w) := by
  constructor
  · intro c hc
    simp only [ResourcePool.Get, ResourcePool.get, hc, if_true]
  · intro c1 c2 h1 h2
    simp only [ResourcePool.Get, ResourcePool.get, h1, h2]

/-- Witness for C16: `agedPool` under a canceled context, and under two live contexts of which
one is canceled later. -/
theorem Get_checks_cancellation_once_at_entry_witness :
    ResourcePool.Get demoClock 2 (some agedPool) (some { canceled := true }) world0 =
      some (.ok (none, some ErrTimeout, some agedPool, world0)) ∧
    ResourcePool.Get demoClock 2 (some agedPool) (some { canceled := false }) world0 =
      ResourcePool.Get demoClock 2 (some agedPool)
        (some { canceled := false, deadline := some 1001 }) world0 :=
  ⟨(Get_checks_cancellation_once_at_entry demoClock 2 (some agedPool) world0).1 { canceled := true } rfl,
    (Get_checks_cancellation_once_at_entry demoClock 2 (some agedPool) world0).2 { canceled := false }
      { canceled := false, deadline := some 1001 } rfl rfl⟩

theorem getLoop_factory_failure (clock : Nat → Int) (e : Error) :
    ∀ (buf : List resourceWrapper) (r : ResourcePool) (w : World) (fuel : Nat),
      r.resources.buf = buf →
      (∀ i (h : i < buf.length),
        r.idleTimeout ≤ timeSub (clock (w.tick + i)) (buf.get ⟨i, h⟩).timeUsed) →
      r.factory w.calls = .error e → buf.length + 1 ≤ fuel →
      ∃ pre, ResourcePool.getLoop clock fuel r w =
          some (.ok (none, some e, { r with resources := { r.resources with buf := [] } },
            { tick := w.tick + buf.length, calls := w.calls + 1,
              trace := w.trace ++ pre ++ [Event.factoryFailed e] })) ∧
        ∀ ev ∈ pre, (∃ wr now, ev = Event.received wr now) ∨ ∃ res, ev = Event.rawClose res := by
  intro buf
  induction buf with
  | nil =>
    intro r w fuel hbuf _ hfail hfuel
    obtain ⟨f, rfl⟩ : ∃ f, fuel = f + 1 := ⟨fuel - 1, by simp at hfuel; omega⟩
    obtain ⟨addr, fac, ⟨b, cap⟩, idle, cb⟩ := r
    simp only at hbuf hfail
    subst hbuf
    refine ⟨[], ?_, by simp⟩
    simp only [ResourcePool.getLoop, hfail, World.emit, List.length_nil, Nat.add_zero,
      List.append_nil]
  | cons x rest ih =>
    intro r w fuel hbuf hidle hfail hfuel
    obtain ⟨f, rfl⟩ : ∃ f, fuel = f + 1 := ⟨fuel - 1, by simp at hfuel; omega⟩
    obtain ⟨addr, fac, ⟨b, cap⟩, idle, cb⟩ := r
    simp only at hbuf hfail hidle
    subst hbuf
    have h0 := hidle 0 (by simp)
    simp only [List.get_eq_getElem, List.getElem_cons_zero, Nat.add_zero] at h0
    obtain ⟨pre, hrec, hpre⟩ := ih
      { address := addr, factory := fac, resources := { buf := rest, cap := cap },
        idleTimeout := idle, circuitBreaker := cb }
      ((w.next.emit (.received x (clock w.tick))).emit (.rawClose x.resource)) f rfl
      (by
        intro i h
        have := hidle (i + 1) (by simp; omega)
        simp only [List.get_eq_getElem, List.getElem_cons_succ] at this
        simp only [World.next, World.emit, List.get_eq_getElem]
        rw [show w.tick + 1 + i = w.tick + (i + 1) by omega]
        exact this)
      (by simpa [World.next, World.emit] using hfail)
      (by simp at hfuel ⊢; omega)
    refine ⟨Event.received x (clock w.tick) :: Event.rawClose x.resource :: pre, ?_, ?_⟩
    · simp only [ResourcePool.getLoop, closeConn_some, ge_iff_le, h0, if_true, hrec]
      simp [World.next, World.emit]
      omega
    · intro ev hev
      simp only [List.mem_cons] at hev
      rcases hev with rfl | rfl | hev
      · exact Or.inl ⟨_, _, rfl⟩
      · exact Or.inr ⟨_, rfl⟩
      · exact hpre ev hev

/-- C17: on a pool whose queued resources are all idle when they are popped (none, when the
queue is empty), under a live context, if the next factory invocation fails with `e` then
`Get` returns a nil resource with exactly `e`, the queue is left empty, the factory was
invoked once, and before the failure the call only popped and closed resources. The pool
keeps its breaker pointer and `Get` has no access to the breakers. -/
theorem Get_propagates_factory_failure (clock : Nat → Int) (r : ResourcePool) (c : Context) (w : World) (e : Error)
    (fuel : Nat) (hc : c.canceled = false)
    (hidle : ∀ i (h : i < r.resources.buf.length),
      r.idleTimeout ≤ timeSub (clock (w.tick + i)) (r.resources.buf.get ⟨i, h⟩).timeUsed)
    (hfail : r.factory w.calls = .error e) (hfuel : r.resources.buf.length + 1 ≤ fuel) :
    ∃ pre w1, ResourcePool.Get clock fuel (some r) (some c) w =
        some (.ok (none, some e,
          some { r with resources := { r.resources with buf := [] } }, w1)) ∧
      w1.calls = w.calls + 1 ∧
      w1.trace = w.trace ++ pre ++ [Event.factoryFailed e] ∧
      ∀ ev ∈ pre, (∃ wr now, ev = Event.received wr now) ∨ ∃ res, ev = Event.rawClose res := by
  obtain ⟨pre, h, hpre⟩ := getLoop_factory_failure clock e _ r w fuel rfl hidle hfail hfuel
  refine ⟨pre, ⟨w.tick + r.resources.buf.length, w.calls + 1,
    w.trace ++ pre ++ [Event.factoryFailed e]⟩, ?_, rfl, rfl, hpre⟩
  simp only [ResourcePool.Get, ResourcePool.get, hc, Bool.false_eq_true, if_false, h]

/-- Witness for C17: `brokenPool`, two idle resources and a factory that fails. -/
theorem Get_propagates_factory_failure_witness :
    (∀ i (h : i < brokenPool.resources.buf.length),
      brokenPool.idleTimeout ≤
        timeSub (demoClock (world0.tick + i))
          (brokenPool.resources.buf.get ⟨i, h⟩).timeUsed) ∧
    brokenPool.factory world0.calls =
      .error { msg := "dial tcp: connection refused", isNet := true } ∧
    brokenPool.resources.buf.length + 1 ≤ 3 ∧
    ∃ pre w1, ResourcePool.Get demoClock 3 (some brokenPool) (some { canceled := false }) world0 =
        some (.ok (none, some { msg := "dial tcp: connection refused", isNet := true },
          some { brokenPool with resources := { brokenPool.resources with buf := [] } }, w1)) ∧
      w1.calls = world0.calls + 1 ∧
      w1.trace = world0.trace ++ pre ++
        [Event.factoryFailed { msg := "dial tcp: connection refused", isNet := true }] ∧
      ∀ ev ∈ pre, (∃ wr now, ev = Event.received wr now) ∨ ∃ res, ev = Event.rawClose res :=
  have hidle : ∀ i (h : i < brokenPool.resources.buf.length),
      brokenPool.idleTimeout ≤
        timeSub (demoClock (world0.tick + i))
          (brokenPool.resources.buf.get ⟨i, h⟩).timeUsed := by
    intro i h
    match i, h with
    | 0, _ =>
      show brokenPool.idleTimeout ≤ timeSub (demoClock (world0.tick + 0)) (100 : Int)
      decide
    | 1, _ =>
      show brokenPool.idleTimeout ≤ timeSub (demoClock (world0.tick + 1)) (900 : Int)
      decide
    | n + 2, h => exact absurd h (by simp [brokenPool, agedPool])
  ⟨hidle, rfl, by decide,
    Get_propagates_factory_failure demoClock brokenPool { canceled := false } world0
      { msg := "dial tcp: connection refused", isNet := true } 3 rfl hidle rfl (by decide)⟩

/-! ## NewResourcePool -/

theorem successes_succ (factory : Nat → Except Error Resource) (c n : Nat) :
    successes factory c (n + 1) =
      (match factory c with
        | .ok res => [res]
        | .error _ => []) ++ successes factory (c + 1) n := by
  unfold successes
  rw [List.range_succ_eq_map, List.filterMap_cons, List.filterMap_map]
  have hfun : ((fun j => (factory (c + j)).toOption) ∘ Nat.succ) =
      (fun j => (factory (c + 1 + j)).toOption) := by
    funext j
    simp only [Function.comp, Nat.succ_eq_add_one]
    rw [show c + (j + 1) = c + 1 + j by omega]
  rw [hfun]
  cases hf : factory c with
  | ok res => simp [Except.toOption, hf]
  | error e => simp [Except.toOption, hf]

theorem populate_spec (clock : Nat → Int) (factory : Nat → Except Error Resource) :
    ∀ (n : Nat) (ch : Chan) (w : World),
      ch.buf.length + (successes factory w.calls n).length ≤ ch.cap →
      ∃ ch1 w1, populate clock factory n ch w = .ok (ch1, w1) ∧ w1.calls = w.calls + n ∧
        ch1.cap = ch.cap ∧
        ch1.buf.map (fun wr => wr.resource) =
          ch.buf.map (fun wr => wr.resource) ++ successes factory w.calls n := by
  intro n
  induction n with
  | zero =>
    intro ch w _
    exact ⟨ch, w, rfl, rfl, rfl, by simp [successes]⟩
  | succ n ih =>
    intro ch w hfit
    rw [successes_succ] at hfit ⊢
    simp only [populate]
    cases hf : factory w.calls with
    | error e =>
      simp only [hf, List.nil_append] at hfit ⊢
      obtain ⟨ch1, w1, h1, h2, h3, h4⟩ := ih ch
        (World.emit { w with calls := w.calls + 1 } (.factoryFailed e)) hfit
      refine ⟨ch1, w1, h1, ?_, h3, h4⟩
      rw [h2]; simp only [World.emit]; omega
    | ok res =>
      simp only [hf, List.length_append, List.length_singleton] at hfit ⊢
      have hlt : ch.buf.length < ch.cap := by omega
      simp only [hlt, if_true]
      obtain ⟨ch1, w1, h1, h2, h3, h4⟩ := ih
        { ch with buf := ch.buf ++ [⟨res, clock w.tick⟩] }
        (((World.emit { w with calls := w.calls + 1 } (.created res)).next).emit
          (.sent ⟨res, clock w.tick⟩))
        (by simp [World.emit, World.next]; omega)
      refine ⟨ch1, w1, h1, ?_, h3, ?_⟩
      · rw [h2]; simp only [World.emit, World.next]; omega
      · rw [h4]; simp [World.emit, World.next]

/-- C14 as stated fails: with `initNum = 2`, `maxCap = 1` and a factory that always succeeds,
`NewResourcePool` does not return: the second resource is sent on the full channel of a pool
nobody else can reach yet, and the send blocks for good. And with `maxCap = 2^62` the
`make` of the channel panics before the factory is invoked at all. -/
theorem NewResourcePool_blocks_when_successes_exceed_maxCap :
    (0 : Int) ≤ 2 ∧ (0 : Int) < 1 ∧
    NewResourcePool demoClock "A" (demoFactory "A") 2 1 60000000000 none world0 =
      .error .blockedSend ∧
    (0 : Int) ≤ 1 ∧ (0 : Int) < 2 ^ 62 ∧
    NewResourcePool demoClock "A" (demoFactory "A") 1 (2 ^ 62) 60000000000 none world0 =
      .error .chanSizeOutOfRange :=
  ⟨by decide, by decide, rfl, by decide, by decide, rfl⟩

/-- C14 (amended): for `initNum >= 0` and `0 < maxCap` within the size the runtime accepts for
a channel, when at most `maxCap` of the `initNum` factory invocations succeed,
`NewResourcePool` returns a pool, has invoked the factory exactly `initNum` times whatever
the failures, and the queue holds exactly the resources of the successful invocations in
creation order (so the resident count is the number of successes, possibly zero). -/
theorem NewResourcePool_prepopulates_from_factory (clock : Nat → Int) (address : String)
    (factory : Nat → Except Error Resource) (initNum maxCap idleTimeout : Int)
    (circuitBreaker : Option Nat) (w : World) (hinit : 0 ≤ initNum) (hcap : 0 < maxCap)
    (hlim : maxCap ≤ maxChanCap)
    (hfit : ((successes factory w.calls initNum.toNat).length : Int) ≤ maxCap) :
    ∃ r w1,
      NewResourcePool clock address factory initNum maxCap idleTimeout circuitBreaker w =
        .ok (r, w1) ∧
      (w1.calls : Int) = w.calls + initNum ∧
      r.resources.buf.map (fun wr => wr.resource) = successes factory w.calls initNum.toNat ∧
      r.resources.buf.length = (successes factory w.calls initNum.toNat).length ∧
      (r.resources.cap : Int) = maxCap := by
  have hfit2 : ([] : List resourceWrapper).length +
      (successes factory w.calls initNum.toNat).length ≤ maxCap.toNat := by
    simp only [List.length_nil, Nat.zero_add]
    omega
  obtain ⟨ch1, w1, h1, h2, h3, h4⟩ := populate_spec clock factory initNum.toNat
    { buf := [], cap := maxCap.toNat } w hfit2
  refine ⟨⟨address, factory, ch1, idleTimeout, circuitBreaker⟩, w1, ?_, ?_, ?_, ?_, ?_⟩
  · simp only [NewResourcePool, not_le.mpr hcap, if_false, not_lt.mpr hlim, gt_iff_lt, h1]
  · rw [h2]; push_cast; rw [Int.toNat_of_nonneg hinit]
  · simpa using h4
  · have := congrArg List.length h4
    simpa using this
  · simp only [h3]; exact Int.toNat_of_nonneg (le_of_lt hcap)

/-- Witness for C14 (amended): three invocations of `flakyFactory` with `maxCap = 2`; the
first and the third succeed. -/
theorem NewResourcePool_prepopulates_from_factory_witness :
    (0 : Int) ≤ 3 ∧ (0 : Int) < 2 ∧ (2 : Int) ≤ maxChanCap ∧
    ((successes flakyFactory world0.calls (3 : Int).toNat).length : Int) ≤ 2 ∧
    (successes flakyFactory world0.calls (3 : Int).toNat).length = 2 ∧
    ∃ r w1,
      NewResourcePool demoClock "A" flakyFactory 3 2 60000000000 none world0 = .ok (r, w1) ∧
      (w1.calls : Int) = world0.calls + 3 ∧
      r.resources.buf.map (fun wr => wr.resource) =
        successes flakyFactory world0.calls (3 : Int).toNat ∧
      r.resources.buf.length = (successes flakyFactory world0.calls (3 : Int).toNat).length ∧
      (r.resources.cap : Int) = 2 :=
  ⟨by decide, by decide, by decide, by decide, by decide,
    NewResourcePool_prepopulates_from_factory demoClock "A" flakyFactory 3 2 60000000000 none
      world0 (by decide) (by decide) (by decide) (by decide)⟩

/-! ## Group.StatsJSON -/

/-- C20 (the code departs from the claim): `Group.StatsJSON` writes the separator after every
element, the last one included. With one registered pool the result ends in `, ]`; with two
pools it does so in either order of the visit; so for `n >= 1` the text is not a well-formed
JSON array. -/
theorem Group_StatsJSON_writes_trailing_separator :
    (∃ g w, NewGroup demoClock ["A"] demoFactory demoOpt world0 = .ok (g, w) ∧
      g.poolIndex.length = 1 ∧
      g.StatsJSON [0] = "[\x7b\"address\": \"A\", \"resourceNum\": 1\x7d, ]") ∧
    (∃ g w, NewGroup demoClock ["A", "B"] demoFactory demoOpt world0 = .ok (g, w) ∧
      g.poolIndex.length = 2 ∧
      g.StatsJSON [0, 1] =
        "[\x7b\"address\": \"B\", \"resourceNum\": 1\x7d, " ++
          "\x7b\"address\": \"A\", \"resourceNum\": 1\x7d, ]" ∧
      g.StatsJSON [1, 0] =
        "[\x7b\"address\": \"A\", \"resourceNum\": 1\x7d, " ++
          "\x7b\"address\": \"B\", \"resourceNum\": 1\x7d, ]") :=
  ⟨⟨_, _, rfl, rfl, by decide⟩, ⟨_, _, rfl, rfl, by decide, by decide⟩⟩

/-! ## NewGroup: bootstrap exclusion -/

theorem populate_ok (clock : Nat → Int) (factory : Nat → Except Error Resource) :
    ∀ (n : Nat) (ch : Chan) (w : World) (ch1 : Chan) (w1 : World),
      populate clock factory n ch w = .ok (ch1, w1) →
      w1.calls = w.calls + n ∧
        ch1.buf.map (fun wr => wr.resource) =
          ch.buf.map (fun wr => wr.resource) ++ successes factory w.calls n := by
  intro n
  induction n with
  | zero =>
    intro ch w ch1 w1 h
    simp only [populate, Except.ok.injEq, Prod.mk.injEq] at h
    obtain ⟨rfl, rfl⟩ := h
    exact ⟨rfl, by simp [successes]⟩
  | succ n ih =>
    intro ch w ch1 w1 h
    rw [successes_succ]
    simp only [populate] at h
    cases hf : factory w.calls with
    | error e =>
      simp only [hf] at h
      obtain ⟨h2, h4⟩ := ih _ _ _ _ h
      simp only [World.emit] at h2 h4
      exact ⟨by rw [h2]; omega, by simpa using h4⟩
    | ok res =>
      simp only [hf] at h
      split_ifs at h with hlt
      obtain ⟨h2, h4⟩ := ih _ _ _ _ h
      simp only [World.emit, World.next] at h2 h4
      exact ⟨by rw [h2]; omega, by rw [h4]; simp⟩

theorem NewResourcePool_ok (clock : Nat → Int) (address : String)
    (factory : Nat → Except Error Resource) (initNum maxCap idleTimeout : Int)
    (circuitBreaker : Option Nat) (w : World) (r : ResourcePool) (w1 : World)
    (h : NewResourcePool clock address factory initNum maxCap idleTimeout circuitBreaker w =
      .ok (r, w1)) :
    r.address = address ∧ r.factory = factory ∧ r.circuitBreaker = circuitBreaker ∧
      w1.calls = w.calls + initNum.toNat ∧
      r.resources.buf.map (fun wr => wr.resource) = successes factory w.calls initNum.toNat := by
  simp only [NewResourcePool] at h
  split_ifs at h
  split at h
  · simp at h
  · rename_i ch w2 hpop
    simp only [Except.ok.injEq, Prod.mk.injEq] at h
    obtain ⟨rfl, rfl⟩ := h
    obtain ⟨h2, h4⟩ := populate_ok clock factory _ _ _ _ _ hpop
    exact ⟨rfl, rfl, rfl, h2, by simpa using h4⟩

theorem wrapped_successes_eq_nil (factory : String → Nat → Except Error Resource)
    (address : String) (ptr : Option Nat) (c n : Nat) :
    successes (fun k =>
        match factory address k with
        | .error err => .error err
        | .ok res => .ok (res.SetCircuitBreaker ptr)) c n = [] ↔
      bootstrapSucceeds factory address c n = false := by
  unfold successes bootstrapSucceeds
  rw [List.filterMap_eq_nil_iff, Bool.eq_false_iff, Ne, List.any_eq_true]
  constructor
  · rintro h ⟨j, hj, hok⟩
    have := h j hj
    cases hf : factory address (c + j) with
    | error e => simp [hf, Except.toBool] at hok
    | ok res => simp [hf, Except.toOption] at this
  · intro h j hj
    cases hf : factory address (c + j) with
    | error e => simp [hf, Except.toOption]
    | ok res => exact absurd ⟨j, hj, by simp [hf, Except.toBool]⟩ h

theorem available_iff (r : ResourcePool) :
    r.available = true ↔ r.resources.buf.map (fun wr => wr.resource) ≠ [] := by
  unfold ResourcePool.available
  cases r.resources.buf <;> simp

theorem lookup_cons_if (m : List (String × ResourcePool)) (k a : String) (v : ResourcePool) :
    List.lookup a ((k, v) :: m) = if a = k then some v else m.lookup a := by
  rw [List.lookup_cons]
  by_cases ha : a = k
  · subst ha
    simp
  · have hb : (a == k) = false := by simpa using ha
    simp [hb, ha]

theorem lookup_filter_ne (m : List (String × ResourcePool)) (k a : String) :
    (m.filter (fun e => e.1 != k)).lookup a = if a = k then none else m.lookup a := by
  induction m with
  | nil => simp
  | cons e m ih =>
    obtain ⟨k1, v1⟩ := e
    by_cases hk : k1 = k
    · subst hk
      simp only [List.filter_cons, bne_self_eq_false, Bool.false_eq_true, if_false, ih,
        lookup_cons_if]
      by_cases ha : a = k1 <;> simp [ha]
    · have hne : (k1 != k) = true := by simpa using hk
      simp only [List.filter_cons, hne, if_true, lookup_cons_if, ih]
      by_cases ha : a = k1
      · subst ha
        simp [hk]
      · simp [ha]

theorem lookup_mapStore (m : List (String × ResourcePool)) (k a : String) (v : ResourcePool) :
    (mapStore m k v).lookup a = if a = k then some v else m.lookup a := by
  unfold mapStore
  rw [lookup_cons_if, lookup_filter_ne]
  by_cases ha : a = k
  · simp [ha]
  · simp [ha]

theorem loop_registered (clock : Nat → Int) (factory : String → Nat → Except Error Resource)
    (opt : Opt) :
    ∀ (addrs : List String) (g0 : Group) (w : World) (g : Group) (w1 : World),
      NewGroup.loop clock factory opt addrs g0 w = .ok (g, w1) →
      g.breakers.Breakers = g0.breakers.Breakers ++
          (registered factory opt.InitNum.toNat addrs w.calls).map
            (fun a => NewCircuitBreaker a opt.TimeToOpenUnit opt.TimeToOpenMax) ∧
        g.breakers.counter = g0.breakers.counter ∧
        ∀ a, (g.poolIndex.lookup a).isSome = true ↔
          ((g0.poolIndex.lookup a).isSome = true ∨
            a ∈ registered factory opt.InitNum.toNat addrs w.calls) := by
  intro addrs
  induction addrs with
  | nil =>
    intro g0 w g w1 h
    simp only [NewGroup.loop, Except.ok.injEq, Prod.mk.injEq] at h
    obtain ⟨rfl, rfl⟩ := h
    simp [registered]
  | cons address rest ih =>
    intro g0 w g w1 h
    simp only [NewGroup.loop] at h
    split at h
    · simp at h
    · rename_i pool w2 hnew
      obtain ⟨-, -, -, hcalls, hbuf⟩ := NewResourcePool_ok _ _ _ _ _ _ _ _ _ _ hnew
      have hav : pool.available = bootstrapSucceeds factory address w.calls opt.InitNum.toNat := by
        cases hb : bootstrapSucceeds factory address w.calls opt.InitNum.toNat with
        | false =>
          have := (wrapped_successes_eq_nil factory address
            (some g0.breakers.Breakers.length) w.calls opt.InitNum.toNat).mpr hb
          rw [this] at hbuf
          cases hp : pool.available with
          | false => rfl
          | true => exact absurd hbuf ((available_iff pool).mp hp)
        | true =>
          apply (available_iff pool).mpr
          rw [hbuf]
          intro hnil
          have := (wrapped_successes_eq_nil factory address
            (some g0.breakers.Breakers.length) w.calls opt.InitNum.toNat).mp hnil
          rw [hb] at this
          exact Bool.noConfusion this
      rw [hav] at h
      cases hb : bootstrapSucceeds factory address w.calls opt.InitNum.toNat with
      | false =>
        simp only [hb, Bool.not_false, if_true] at h
        obtain ⟨h1, h2, h3⟩ := ih _ _ _ _ h
        rw [hcalls] at h1 h3
        simp only [registered, hb, Bool.false_eq_true, if_false, List.nil_append]
        exact ⟨h1, h2, h3⟩
      | true =>
        simp only [hb, Bool.not_true, Bool.false_eq_true, if_false] at h
        obtain ⟨h1, h2, h3⟩ := ih _ _ _ _ h
        rw [hcalls] at h1 h3
        simp only [registered, hb, if_true, List.singleton_append, List.map_cons,
          List.mem_cons]
        refine ⟨?_, ?_, ?_⟩
        · rw [h1]
          simp [BreakerGroup.AddBreaker]
        · rw [h2]
          rfl
        · intro a
          rw [h3 a, lookup_mapStore]
          by_cases ha : a = address
          · simp [ha]
          · simp [ha]

theorem scan_some_lt (clock : Nat → Int) (gm : BreakerGroup) (length : Nat)
    (hlen : 0 < length) :
    ∀ (n idx tick i t : Nat), BreakerGroup.scan clock gm length n idx tick = .ok (some i, t) →
      i < length := by
  intro n
  induction n with
  | zero => intro idx tick i t h; simp [BreakerGroup.scan] at h
  | succ n ih =>
    intro idx tick i t h
    simp only [BreakerGroup.scan] at h
    split at h
    · simp at h
    · split_ifs at h
      · exact ih _ _ _ _ h
      · simp only [Except.ok.injEq, Prod.mk.injEq, Option.some.injEq] at h
        rw [← h.1]
        exact Nat.mod_lt _ hlen

theorem GetAvailable_some_lt (clock : Nat → Int) (gm : BreakerGroup) (w : World) (i : Nat)
    (err : Option Error) (gm1 : BreakerGroup) (w1 : World)
    (h : gm.GetAvailable clock w = .ok (some i, err, gm1, w1)) : i < gm.Breakers.length := by
  simp only [BreakerGroup.GetAvailable] at h
  split_ifs at h with hlen
  have hpos : 0 < gm.Breakers.length := Nat.pos_of_ne_zero hlen
  split at h
  · simp at h
  · split_ifs at h
    · simp only [Except.ok.injEq, Prod.mk.injEq, Option.some.injEq] at h
      rw [← h.1]
      exact Nat.mod_lt _ hpos
    · split at h
      · simp at h
      · rename_i j t hscan
        simp only [Except.ok.injEq, Prod.mk.injEq, Option.some.injEq] at h
        rw [← h.1]
        exact scan_some_lt clock gm _ hpos _ _ _ _ _ hscan
      · simp at h

theorem wrapped_successes_length (factory : String → Nat → Except Error Resource)
    (address : String) (ptr : Option Nat) (n : Nat) :
    ∀ c, (successes (fun k =>
        match factory address k with
        | .error err => .error err
        | .ok res => .ok (res.SetCircuitBreaker ptr)) c n).length =
      (successes (factory address) c n).length := by
  induction n with
  | zero => intro c; simp [successes]
  | succ n ih =>
    intro c
    rw [successes_succ, successes_succ, List.length_append, List.length_append, ih (c + 1)]
    cases hf : factory address c <;> simp

theorem NewResourcePool_returns (clock : Nat → Int) (address : String)
    (factory : Nat → Except Error Resource) (initNum maxCap idleTimeout : Int)
    (circuitBreaker : Option Nat) (w : World) (hcap : 0 < maxCap) (hlim : maxCap ≤ maxChanCap)
    (hfit : (successes factory w.calls initNum.toNat).length ≤ maxCap.toNat) :
    ∃ r w1, NewResourcePool clock address factory initNum maxCap idleTimeout circuitBreaker w =
      .ok (r, w1) := by
  obtain ⟨ch1, w1, h1, -⟩ := populate_spec clock factory initNum.toNat
    { buf := [], cap := maxCap.toNat } w (by simpa using hfit)
  exact ⟨⟨address, factory, ch1, idleTimeout, circuitBreaker⟩, w1, by
    simp only [NewResourcePool, not_le.mpr hcap, if_false, not_lt.mpr hlim, gt_iff_lt, h1]⟩

theorem loop_returns (clock : Nat → Int) (factory : String → Nat → Except Error Resource)
    (opt : Opt) (hcap : 0 < opt.MaxCap) (hlim : opt.MaxCap ≤ maxChanCap) :
    ∀ (addrs : List String) (g0 : Group) (w : World),
      bootstrapFits factory opt.InitNum.toNat opt.MaxCap.toNat addrs w.calls = true →
      ∃ g w1, NewGroup.loop clock factory opt addrs g0 w = .ok (g, w1) := by
  intro addrs
  induction addrs with
  | nil => intro g0 w _; exact ⟨g0, w, rfl⟩
  | cons address rest ih =>
    intro g0 w hfit
    simp only [bootstrapFits, Bool.and_eq_true, decide_eq_true_eq] at hfit
    obtain ⟨pool, w2, hnew⟩ := NewResourcePool_returns clock address
      (fun k =>
        match factory address k with
        | .error err => .error err
        | .ok res => .ok (res.SetCircuitBreaker (some g0.breakers.Breakers.length)))
      opt.InitNum opt.MaxCap opt.MaxIdleTimeout (some g0.breakers.Breakers.length) w hcap hlim
      (by rw [wrapped_successes_length]; exact hfit.1)
    obtain ⟨-, -, -, hcalls, -⟩ := NewResourcePool_ok _ _ _ _ _ _ _ _ _ _ hnew
    have hrest := hfit.2
    rw [← hcalls] at hrest
    simp only [NewGroup.loop, hnew]
    split_ifs
    · exact ih _ _ hrest
    · exact ih _ _ hrest

/-- C13 as stated fails: with `MaxCap = 1 > 0`, `InitNum = 2` and a factory that always
succeeds, the bootstrap calls for "A" succeed, yet "A" is not registered: `NewGroup` does not
return, the second resource being sent on the full channel of the pool under construction. -/
theorem NewGroup_blocks_when_bootstrap_exceeds_MaxCap :
    0 < overfullOpt.MaxCap ∧
    bootstrapSucceeds demoFactory "A" world0.calls overfullOpt.InitNum.toNat = true ∧
    NewGroup demoClock ["A"] demoFactory overfullOpt world0 = .error .blockedSend :=
  ⟨by decide, by decide, rfl⟩

/-- C13 (amended): for `0 < MaxCap` within the size the runtime accepts for a channel, when
for every entry of the address list at most `MaxCap` of its `InitNum` bootstrap factory
invocations succeed, `NewGroup` returns a group in which the addresses of the registered
breakers are, in input order, exactly the entries of the address list for which at least one
bootstrap invocation succeeded; an address is a key of the pool index exactly when it is one
of them; and whatever the later breaker states and counter, a breaker selected by
`GetAvailable` has a registered address that is a key of the pool index. -/
theorem NewGroup_registers_bootstrapped_addresses (clock : Nat → Int) (addressList : List String)
    (factory : String → Nat → Except Error Resource) (opt : Opt) (w : World)
    (hcap : 0 < opt.MaxCap) (hlim : opt.MaxCap ≤ maxChanCap)
    (hfit : bootstrapFits factory opt.InitNum.toNat opt.MaxCap.toNat addressList w.calls =
      true) :
    ∃ g w1, NewGroup clock addressList factory opt w = .ok (g, w1) ∧
      g.breakers.Breakers.map (fun b => b.Addr) =
          registered factory opt.InitNum.toNat addressList w.calls ∧
      (∀ a, (g.poolIndex.lookup a).isSome = true ↔
        a ∈ registered factory opt.InitNum.toNat addressList w.calls) ∧
      (∀ (clock1 : Nat → Int) (gm : BreakerGroup) (w2 : World) (i : Nat) (err : Option Error)
        (gm1 : BreakerGroup) (w3 : World),
        gm.Breakers.map (fun b => b.Addr) = g.breakers.Breakers.map (fun b => b.Addr) →
        gm.GetAvailable clock1 w2 = .ok (some i, err, gm1, w3) →
        ∃ b, gm.Breakers[i]? = some b ∧
          b.Addr ∈ registered factory opt.InitNum.toNat addressList w.calls ∧
          (g.poolIndex.lookup b.Addr).isSome = true) := by
  obtain ⟨g, w1, hnew⟩ := loop_returns clock factory opt hcap hlim addressList
    { poolIndex := [], breakers := NewBreakerGroup } w hfit
  obtain ⟨h1, -, h3⟩ := loop_registered clock factory opt addressList _ w g w1 hnew
  have hmap : g.breakers.Breakers.map (fun b => b.Addr) =
      registered factory opt.InitNum.toNat addressList w.calls := by
    rw [h1]
    simp only [NewBreakerGroup, List.nil_append, List.map_map]
    exact List.map_id _
  have hidx : ∀ a, (g.poolIndex.lookup a).isSome = true ↔
      a ∈ registered factory opt.InitNum.toNat addressList w.calls := by
    intro a
    rw [h3 a]
    simp
  refine ⟨g, w1, hnew, hmap, hidx, ?_⟩
  intro clock1 gm w2 i err gm1 w3 hsame hget
  have hlt := GetAvailable_some_lt clock1 gm w2 i err gm1 w3 hget
  refine ⟨gm.Breakers[i], List.getElem?_eq_getElem hlt, ?_⟩
  have hmem : gm.Breakers[i].Addr ∈ gm.Breakers.map (fun b => b.Addr) :=
    List.mem_map.mpr ⟨_, List.getElem_mem hlt, rfl⟩
  rw [hsame, hmap] at hmem
  exact ⟨hmem, (hidx _).mpr hmem⟩

/-- Witness for C13 (amended): addresses "A" and "B", the factory failing for "A" and
succeeding for "B", one bootstrap invocation each and room for two: only "B" is registered. -/
theorem NewGroup_registers_bootstrapped_addresses_witness :
    0 < demoOpt.MaxCap ∧ demoOpt.MaxCap ≤ maxChanCap ∧
    bootstrapFits abFactory demoOpt.InitNum.toNat demoOpt.MaxCap.toNat ["A", "B"]
      world0.calls = true ∧
    registered abFactory demoOpt.InitNum.toNat ["A", "B"] world0.calls = ["B"] ∧
    ∃ g w1, NewGroup demoClock ["A", "B"] abFactory demoOpt world0 = .ok (g, w1) ∧
      g.breakers.Breakers.map (fun b => b.Addr) =
        registered abFactory demoOpt.InitNum.toNat ["A", "B"] world0.calls ∧
      (∀ a, (g.poolIndex.lookup a).isSome = true ↔
        a ∈ registered abFactory demoOpt.InitNum.toNat ["A", "B"] world0.calls) ∧
      (∀ (clock1 : Nat → Int) (gm : BreakerGroup) (w2 : World) (i : Nat) (err : Option Error)
        (gm1 : BreakerGroup) (w3 : World),
        gm.Breakers.map (fun b => b.Addr) = g.breakers.Breakers.map (fun b => b.Addr) →
        gm.GetAvailable clock1 w2 = .ok (some i, err, gm1, w3) →
        ∃ b, gm.Breakers[i]? = some b ∧
          b.Addr ∈ registered abFactory demoOpt.InitNum.toNat ["A", "B"] world0.calls ∧
          (g.poolIndex.lookup b.Addr).isSome = true) :=
  ⟨by decide, by decide, by decide, by decide,
    NewGroup_registers_bootstrapped_addresses demoClock ["A", "B"] abFactory demoOpt world0
      (by decide) (by decide) (by decide)⟩

/-! ## One breaker, one pool, one address -/

theorem registered_sublist (factory : String → Nat → Except Error Resource) (n : Nat) :
    ∀ (addrs : List String) (c : Nat), List.Sublist (registered factory n addrs c) addrs := by
  intro addrs
  induction addrs with
  | nil => intro c; exact List.Sublist.refl _
  | cons a rest ih =>
    intro c
    simp only [registered]
    split_ifs
    · exact (ih (c + n)).cons₂ a
    · exact (ih (c + n)).cons a

theorem mapStore_fresh (m : List (String × ResourcePool)) (k : String) (v : ResourcePool)
    (hk : k ∉ m.map Prod.fst) : mapStore m k v = (k, v) :: m := by
  unfold mapStore
  congr 1
  apply List.filter_eq_self.mpr
  intro e he
  have : e.1 ≠ k := by
    intro heq
    exact hk (List.mem_map.mpr ⟨e, he, heq⟩)
  simpa using this

theorem loop_bound (clock : Nat → Int) (factory : String → Nat → Except Error Resource)
    (opt : Opt) :
    ∀ (addrs : List String) (g0 : Group) (w : World) (g : Group) (w1 : World),
      NewGroup.loop clock factory opt addrs g0 w = .ok (g, w1) →
      addrs.Nodup → (∀ a ∈ addrs, a ∉ g0.poolIndex.map Prod.fst) →
      g0.poolIndex.map Prod.fst = (g0.breakers.Breakers.map (fun b => b.Addr)).reverse →
      (∀ i b, g0.breakers.Breakers[i]? = some b →
        ∃ pool, g0.poolIndex.lookup b.Addr = some pool ∧ pool.circuitBreaker = some i ∧
          pool.address = b.Addr ∧
          ∀ k res, pool.factory k = .ok res → res.circuitBreaker = some i) →
      g.poolIndex.map Prod.fst = (g.breakers.Breakers.map (fun b => b.Addr)).reverse ∧
      (∀ i b, g.breakers.Breakers[i]? = some b →
        ∃ pool, g.poolIndex.lookup b.Addr = some pool ∧ pool.circuitBreaker = some i ∧
          pool.address = b.Addr ∧
          ∀ k res, pool.factory k = .ok res → res.circuitBreaker = some i) := by
  intro addrs
  induction addrs with
  | nil =>
    intro g0 w g w1 h _ _ hkeys hbound
    simp only [NewGroup.loop, Except.ok.injEq, Prod.mk.injEq] at h
    obtain ⟨rfl, rfl⟩ := h
    exact ⟨hkeys, hbound⟩
  | cons address rest ih =>
    intro g0 w g w1 h hnodup hfresh hkeys hbound
    have hrest : rest.Nodup := (List.nodup_cons.mp hnodup).2
    have hnotin : address ∉ rest := (List.nodup_cons.mp hnodup).1
    have hfresh0 : address ∉ g0.poolIndex.map Prod.fst := hfresh address (List.mem_cons_self _ _)
    simp only [NewGroup.loop] at h
    split at h
    · simp at h
    · rename_i pool w2 hnew
      obtain ⟨haddr, hfac, hcb, -, -⟩ := NewResourcePool_ok _ _ _ _ _ _ _ _ _ _ hnew
      split_ifs at h with hav
      · exact ih _ _ _ _ h hrest (fun a ha => hfresh a (List.mem_cons_of_mem _ ha)) hkeys hbound
      · apply ih _ _ _ _ h hrest
        · intro a ha
          simp only [mapStore_fresh _ _ _ hfresh0, List.map_cons, List.mem_cons, not_or]
          refine ⟨?_, hfresh a (List.mem_cons_of_mem _ ha)⟩
          intro heq
          exact hnotin (heq ▸ ha)
        · simp only [mapStore_fresh _ _ _ hfresh0, List.map_cons, BreakerGroup.AddBreaker,
            List.map_append, List.map_nil, List.reverse_append, List.reverse_cons,
            List.reverse_nil, List.nil_append, List.singleton_append, hkeys]
          rfl
        · intro i b hb
          simp only [BreakerGroup.AddBreaker] at hb
          by_cases hi : i < g0.breakers.Breakers.length
          · rw [List.getElem?_append_left hi] at hb
            obtain ⟨p, hp1, hp2⟩ := hbound i b hb
            have hmem : b.Addr ∈ g0.poolIndex.map Prod.fst := by
              rw [hkeys, List.mem_reverse]
              exact List.mem_map.mpr ⟨b, List.getElem?_mem hb, rfl⟩
            have hne : b.Addr ≠ address := by
              intro heq
              exact hfresh0 (heq ▸ hmem)
            refine ⟨p, ?_, hp2⟩
            simp only [lookup_mapStore, hne, if_false, hp1]
          · have hi2 : g0.breakers.Breakers.length ≤ i := Nat.le_of_not_lt hi
            rw [List.getElem?_append_right hi2] at hb
            have hi3 : i - g0.breakers.Breakers.length = 0 := by
              by_contra hne
              have : 1 ≤ i - g0.breakers.Breakers.length := Nat.one_le_iff_ne_zero.mpr hne
              rw [List.getElem?_eq_none (by simpa using this)] at hb
              exact Option.noConfusion hb
            rw [hi3] at hb
            simp only [List.getElem?_cons_zero, Option.some.injEq] at hb
            have hieq : i = g0.breakers.Breakers.length := by omega
            subst hb
            refine ⟨pool, ?_, ?_, ?_, ?_⟩
            · simp [lookup_mapStore, NewCircuitBreaker]
            · rw [hcb, hieq]
            · rw [haddr]; rfl
            · intro k res hk
              rw [hfac] at hk
              simp only at hk
              split at hk
              · simp at hk
              · simp only [Except.ok.injEq] at hk
                rw [← hk, hieq]
                rfl


/-- C19 as stated fails: for the address list ["A", "A"] and a factory that always succeeds,
`NewGroup` registers two breakers, both with address "A", and one pool: the second pool
replaced the first in the pool index, and its breaker pointer is breaker `1`, not breaker `0`. -/
theorem NewGroup_repeated_address_breaks_pairing :
    ∃ g w1, NewGroup demoClock ["A", "A"] demoFactory demoOpt world0 = .ok (g, w1) ∧
      g.breakers.Breakers.length = 2 ∧ g.poolIndex.length = 1 ∧
      g.breakers.Breakers.map (fun b => b.Addr) = ["A", "A"] ∧
      (g.poolIndex.lookup "A").map (fun pool => pool.circuitBreaker) = some (some 1) :=
  ⟨_, _, rfl, rfl, rfl, rfl, rfl⟩

/-- C19 (amended): for an address list that does not repeat an address, when `NewGroup`
returns, the number of registered breakers equals the number of pools in the pool index, the
registered breakers have pairwise distinct addresses, and for every registered breaker `b`,
at position `i`, the pool stored under `b.Addr` is the one built together with `b`: its
breaker pointer is `i`, its address is `b.Addr`, and every resource its factory makes has
breaker `i` attached. -/
theorem NewGroup_pairs_breaker_pool_address (clock : Nat → Int) (addressList : List String)
    (factory : String → Nat → Except Error Resource) (opt : Opt) (w : World) (g : Group)
    (w1 : World) (hnodup : addressList.Nodup)
    (hnew : NewGroup clock addressList factory opt w = .ok (g, w1)) :
    g.breakers.Breakers.length = g.poolIndex.length ∧
    (g.breakers.Breakers.map (fun b => b.Addr)).Nodup ∧
    ∀ i b, g.breakers.Breakers[i]? = some b →
      ∃ pool, g.poolIndex.lookup b.Addr = some pool ∧ pool.circuitBreaker = some i ∧
        pool.address = b.Addr ∧
        ∀ k res, pool.factory k = .ok res → res.circuitBreaker = some i := by
  obtain ⟨hkeys, hbound⟩ := loop_bound clock factory opt addressList _ w g w1 hnew hnodup
    (by intro a _; simp) (by simp [NewBreakerGroup])
    (by intro i b hb; simp [NewBreakerGroup] at hb)
  obtain ⟨h1, -, -⟩ := loop_registered clock factory opt addressList _ w g w1 hnew
  refine ⟨?_, ?_, hbound⟩
  · have := congrArg List.length hkeys
    simpa using this.symm
  · have hmap : g.breakers.Breakers.map (fun b => b.Addr) =
        registered factory opt.InitNum.toNat addressList w.calls := by
      rw [h1]
      simp only [NewBreakerGroup, List.nil_append, List.map_map]
      exact List.map_id _
    rw [hmap]
    exact hnodup.sublist (registered_sublist factory _ addressList w.calls)

/-- Witness for C19 (amended): addresses "A" and "B" with a factory that always succeeds. -/
theorem NewGroup_pairs_breaker_pool_address_witness :
    ∃ g w1, ["A", "B"].Nodup ∧
      NewGroup demoClock ["A", "B"] demoFactory demoOpt world0 = .ok (g, w1) ∧
      g.breakers.Breakers.length = 2 ∧
      g.breakers.Breakers.length = g.poolIndex.length ∧
      (g.breakers.Breakers.map (fun b => b.Addr)).Nodup ∧
      ∀ i b, g.breakers.Breakers[i]? = some b →
        ∃ pool, g.poolIndex.lookup b.Addr = some pool ∧ pool.circuitBreaker = some i ∧
          pool.address = b.Addr ∧
          ∀ k res, pool.factory k = .ok res → res.circuitBreaker = some i :=
  ⟨_, _, by decide, rfl, rfl,
    NewGroup_pairs_breaker_pool_address demoClock ["A", "B"] demoFactory demoOpt world0 _ _
      (by decide) rfl⟩

/-! ## Create on miss -/

theorem timeSub_pos {t u : Int} (h : u < t) : 1 ≤ timeSub t u := by
  unfold timeSub maxDuration minDuration
  split_ifs <;> omega

theorem tickPool_getLoop (fuel : Nat) :
    ∀ (buf : List resourceWrapper) (w : World),
      (∀ x ∈ buf, x.timeUsed < demoClock w.tick) →
      ResourcePool.getLoop demoClock fuel
        { tickPool with resources := { buf := buf, cap := 1 } } w = none := by
  induction fuel with
  | zero => intro buf w _; rfl
  | succ n ih =>
    intro buf w hb
    cases buf with
    | nil =>
      simp only [ResourcePool.getLoop, tickPool, ResourcePool.enqueue, demoFactory]
      simp
      apply ih
      intro x hx
      simp at hx
      subst hx
      simp [World.next, World.emit, demoClock]
    | cons x rest =>
      have hx : 1 ≤ timeSub (demoClock w.tick) x.timeUsed :=
        timeSub_pos (hb x (List.mem_cons_self _ _))
      simp only [ResourcePool.getLoop, tickPool, closeConn_some]
      simp only [ge_iff_le, hx, if_true]
      apply ih
      intro y hy
      have := hb y (List.mem_cons_of_mem _ hy)
      simp [World.next, World.emit, demoClock] at this ⊢
      omega

/-- C21 as stated fails: on a pool with `idleTimeout = 1ns > 0`, capacity one, an empty queue
and a factory that succeeds, under a clock that advances one nanosecond per reading, `Get`
never returns: the created resource is one nanosecond old when it is popped, hence idle; it is
closed and the factory is invoked again, without end. -/
theorem Get_discards_created_resource_when_clock_advances :
    0 < tickPool.idleTimeout ∧ 0 < tickPool.resources.cap ∧ tickPool.resources.buf = [] ∧
    (∃ res, tickPool.factory world0.calls = .ok res) ∧
    ¬ ∃ fuel,
      (ResourcePool.Get demoClock fuel (some tickPool) ctxLive world0).isSome = true := by
  refine ⟨by decide, by decide, rfl, ⟨_, rfl⟩, ?_⟩
  rintro ⟨fuel, h⟩
  have := tickPool_getLoop fuel [] world0 (by simp)
  simp [ResourcePool.Get, ResourcePool.get, ctxLive, tickPool] at h this
  rw [this] at h
  simp at h

theorem getLoop_create_on_miss (clock : Nat → Int) (res : Resource) :
    ∀ (buf : List resourceWrapper) (r : ResourcePool) (w : World) (fuel : Nat),
      r.resources.buf = buf → 0 < r.resources.cap →
      (∀ i (h : i < buf.length),
        r.idleTimeout ≤ timeSub (clock (w.tick + i)) (buf.get ⟨i, h⟩).timeUsed) →
      r.factory w.calls = .ok res →
      timeSub (clock (w.tick + buf.length + 1)) (clock (w.tick + buf.length)) < r.idleTimeout →
      buf.length + 2 ≤ fuel →
      ∃ pre, ResourcePool.getLoop clock fuel r w =
          some (.ok (some res, none, { r with resources := { r.resources with buf := [] } },
            { tick := w.tick + buf.length + 2, calls := w.calls + 1,
              trace := w.trace ++ pre ++
                [Event.created res, Event.sent ⟨res, clock (w.tick + buf.length)⟩,
                  Event.received ⟨res, clock (w.tick + buf.length)⟩
                    (clock (w.tick + buf.length + 1))] })) ∧
        ∀ ev ∈ pre, (∃ wr now, ev = Event.received wr now) ∨ ∃ x, ev = Event.rawClose x := by
  intro buf
  induction buf with
  | nil =>
    intro r w fuel hbuf hcap _ hok hfresh hfuel
    obtain ⟨f, rfl⟩ : ∃ f, fuel = f + 2 := ⟨fuel - 2, by simp at hfuel; omega⟩
    obtain ⟨addr, fac, ⟨b, cap⟩, idle, cb⟩ := r
    simp only at hbuf hcap hok hfresh
    subst hbuf
    simp only [List.length_nil, Nat.add_zero] at hfresh
    refine ⟨[], ?_, by simp⟩
    simp only [ResourcePool.getLoop, hok, ResourcePool.enqueue, List.length_nil, hcap, if_true,
      List.nil_append, World.next, World.emit, ge_iff_le, not_le.mpr hfresh, if_false,
      Nat.add_zero, List.append_nil, List.append_assoc, List.singleton_append]
    rfl
  | cons x rest ih =>
    intro r w fuel hbuf hcap hidle hok hfresh hfuel
    obtain ⟨f, rfl⟩ : ∃ f, fuel = f + 1 := ⟨fuel - 1, by simp at hfuel; omega⟩
    obtain ⟨addr, fac, ⟨b, cap⟩, idle, cb⟩ := r
    simp only at hbuf hcap hok hidle hfresh
    subst hbuf
    have h0 := hidle 0 (by simp)
    simp only [List.get_eq_getElem, List.getElem_cons_zero, Nat.add_zero] at h0
    obtain ⟨pre, hrec, hpre⟩ := ih
      { address := addr, factory := fac, resources := { buf := rest, cap := cap },
        idleTimeout := idle, circuitBreaker := cb }
      ((w.next.emit (.received x (clock w.tick))).emit (.rawClose x.resource)) f rfl hcap
      (by
        intro i h
        have := hidle (i + 1) (by simp; omega)
        simp only [List.get_eq_getElem, List.getElem_cons_succ] at this
        simp only [World.next, World.emit, List.get_eq_getElem]
        rw [show w.tick + 1 + i = w.tick + (i + 1) by omega]
        exact this)
      (by simpa [World.next, World.emit] using hok)
      (by
        simp only [World.next, World.emit]
        simp only [List.length_cons] at hfresh
        rw [show w.tick + 1 + rest.length + 1 = w.tick + (rest.length + 1) + 1 by omega,
          show w.tick + 1 + rest.length = w.tick + (rest.length + 1) by omega]
        exact hfresh)
      (by simp at hfuel ⊢; omega)
    refine ⟨Event.received x (clock w.tick) :: Event.rawClose x.resource :: pre, ?_, ?_⟩
    · simp only [ResourcePool.getLoop, closeConn_some, ge_iff_le, h0, if_true, hrec]
      simp only [World.next, World.emit, List.length_cons, List.append_assoc,
        List.singleton_append, List.cons_append]
      rw [show w.tick + 1 + rest.length + 2 = w.tick + (rest.length + 1) + 2 by omega,
        show w.tick + 1 + rest.length + 1 = w.tick + (rest.length + 1) + 1 by omega,
        show w.tick + 1 + rest.length = w.tick + (rest.length + 1) by omega]
      rfl
    · intro ev hev
      simp only [List.mem_cons] at hev
      rcases hev with rfl | rfl | hev
      · exact Or.inl ⟨_, _, rfl⟩
      · exact Or.inr ⟨_, rfl⟩
      · exact hpre ev hev

/-- C21 (amended): on a pool with positive capacity whose queued resources are all idle when
they are popped (none, when the queue is empty), under a live context, if the next factory
invocation succeeds with `res` and the clock reading taken at the pop that follows is less
than `idleTimeout` after the reading that stamped `res`, then `Get` returns exactly `res`
with a nil error; the call ends with the creation of `res`, its send on the queue and its
pop, after nothing but pops and closes; the factory was invoked once and the queue is left
empty. -/
theorem Get_creates_on_miss_and_returns_through_queue (clock : Nat → Int) (r : ResourcePool)
    (c : Context) (w : World) (res : Resource) (fuel : Nat) (hc : c.canceled = false)
    (hcap : 0 < r.resources.cap)
    (hidle : ∀ i (h : i < r.resources.buf.length),
      r.idleTimeout ≤ timeSub (clock (w.tick + i)) (r.resources.buf.get ⟨i, h⟩).timeUsed)
    (hok : r.factory w.calls = .ok res)
    (hfresh : timeSub (clock (w.tick + r.resources.buf.length + 1))
      (clock (w.tick + r.resources.buf.length)) < r.idleTimeout)
    (hfuel : r.resources.buf.length + 2 ≤ fuel) :
    ∃ pre w1, ResourcePool.Get clock fuel (some r) (some c) w =
        some (.ok (some res, none,
          some { r with resources := { r.resources with buf := [] } }, w1)) ∧
      w1.calls = w.calls + 1 ∧
      w1.trace = w.trace ++ pre ++
        [Event.created res, Event.sent ⟨res, clock (w.tick + r.resources.buf.length)⟩,
          Event.received ⟨res, clock (w.tick + r.resources.buf.length)⟩
            (clock (w.tick + r.resources.buf.length + 1))] ∧
      ∀ ev ∈ pre, (∃ wr now, ev = Event.received wr now) ∨ ∃ x, ev = Event.rawClose x := by
  obtain ⟨pre, h, hpre⟩ :=
    getLoop_create_on_miss clock res _ r w fuel rfl hcap hidle hok hfresh hfuel
  refine ⟨pre, ⟨w.tick + r.resources.buf.length + 2, w.calls + 1, _⟩, ?_, rfl, rfl, hpre⟩
  simp only [ResourcePool.Get, ResourcePool.get, hc, Bool.false_eq_true, if_false, h]

/-- Witness for C21 (amended): `stalePool` under `demoClock`: the two queued resources are
closed, resource number `0` is created at `1002ns`, popped at `1003ns` and returned. -/
theorem Get_creates_on_miss_and_returns_through_queue_witness :
    0 < stalePool.resources.cap ∧
    (∀ i (h : i < stalePool.resources.buf.length),
      stalePool.idleTimeout ≤
        timeSub (demoClock (world0.tick + i)) (stalePool.resources.buf.get ⟨i, h⟩).timeUsed) ∧
    stalePool.factory world0.calls =
      .ok { id := 0, address := "A", rawCloseFails := false, circuitBreaker := none } ∧
    timeSub (demoClock (world0.tick + stalePool.resources.buf.length + 1))
      (demoClock (world0.tick + stalePool.resources.buf.length)) < stalePool.idleTimeout ∧
    stalePool.resources.buf.length + 2 ≤ 4 ∧
    ∃ pre w1, ResourcePool.Get demoClock 4 (some stalePool) (some { canceled := false }) world0 =
        some (.ok (some { id := 0, address := "A", rawCloseFails := false,
                          circuitBreaker := none }, none,
          some { stalePool with resources := { stalePool.resources with buf := [] } }, w1)) ∧
      w1.calls = world0.calls + 1 ∧
      w1.trace = world0.trace ++ pre ++
        [Event.created { id := 0, address := "A", rawCloseFails := false,
                         circuitBreaker := none },
          Event.sent ⟨{ id := 0, address := "A", rawCloseFails := false,
                        circuitBreaker := none },
            demoClock (world0.tick + stalePool.resources.buf.length)⟩,
          Event.received ⟨{ id := 0, address := "A", rawCloseFails := false,
                            circuitBreaker := none },
              demoClock (world0.tick + stalePool.resources.buf.length)⟩
            (demoClock (world0.tick + stalePool.resources.buf.length + 1))] ∧
      ∀ ev ∈ pre, (∃ wr now, ev = Event.received wr now) ∨ ∃ x, ev = Event.rawClose x :=
  have hidle : ∀ i (h : i < stalePool.resources.buf.length),
      stalePool.idleTimeout ≤
        timeSub (demoClock (world0.tick + i))
          (stalePool.resources.buf.get ⟨i, h⟩).timeUsed := by
    intro i h
    match i, h with
    | 0, _ =>
      show stalePool.idleTimeout ≤ timeSub (demoClock (world0.tick + 0)) (100 : Int)
      decide
    | 1, _ =>
      show stalePool.idleTimeout ≤ timeSub (demoClock (world0.tick + 1)) (900 : Int)
      decide
    | n + 2, h => exact absurd h (by simp [stalePool, agedPool])
  ⟨by decide, hidle, rfl, by decide, by decide,
    Get_creates_on_miss_and_returns_through_queue demoClock stalePool { canceled := false }
      world0 { id := 0, address := "A", rawCloseFails := false, circuitBreaker := none } 4 rfl
      (by decide) hidle rfl (by decide) (by decide)⟩

end ThriftPool
